import Mathlib

/-!
# youtubey: identifier extraction, fallback summary and summarize handler

A shallow embedding of `api/summarize.js` (and the parts of `api/transcript.js`
and `src/App.jsx` that share its logic).

* A JavaScript string is a `List Char`; one `Char` stands for one character of
  the string.  Every character test of the source (`\s`, `\w`, `.`, `' '`, `'.'`)
  is a test on the code point.
* The regular expression literal of `extractVideoId` is a value of `Regex`, run
  by a backtracking matcher written in continuation style after the ECMAScript
  pattern semantics (alternatives left to right, greedy quantifiers).
* The two outside services (`getTranscript`, the generation endpoint reached by
  `fetch`) are fields of a `World`; the handler is a pure function of the
  request and the world and returns the response with the list of calls made.
-/

set_option autoImplicit false

namespace Youtubey

/-- A JavaScript string. -/
abbrev JSString := List Char

/-! ## Character classes -/

/-- ECMAScript `LineTerminator`: LF, CR, LS, PS. -/
def isLineTerminator (c : Char) : Bool :=
  c.toNat == 0x0A || c.toNat == 0x0D || c.toNat == 0x2028 || c.toNat == 0x2029

/-- ECMAScript `WhiteSpace`: TAB, VT, FF, SP, NBSP, ZWNBSP and the category Zs. -/
def isWhiteSpace (c : Char) : Bool :=
  c.toNat == 0x09 || c.toNat == 0x0B || c.toNat == 0x0C || c.toNat == 0x20 ||
  c.toNat == 0xA0 || c.toNat == 0x1680 || (0x2000 ≤ c.toNat && c.toNat ≤ 0x200A) ||
  c.toNat == 0x202F || c.toNat == 0x205F || c.toNat == 0x3000 || c.toNat == 0xFEFF

/-- The class `\s` (also the characters removed by `String.prototype.trim`). -/
def isSpaceChar (c : Char) : Bool := isWhiteSpace c || isLineTerminator c

/-- The class `\S`. -/
def isNonSpace (c : Char) : Bool := !isSpaceChar c

/-- The class `.` (no `s` flag): every character but a line terminator. -/
def isDot (c : Char) : Bool := !isLineTerminator c

/-- The class `\w`: `[A-Za-z0-9_]`. -/
def isWordChar (c : Char) : Bool :=
  (0x41 ≤ c.toNat && c.toNat ≤ 0x5A) || (0x61 ≤ c.toNat && c.toNat ≤ 0x7A) ||
  (0x30 ≤ c.toNat && c.toNat ≤ 0x39) || c.toNat == 0x5F

/-- The class `[\w-]`. -/
def isIdChar (c : Char) : Bool := isWordChar c || c == '-'

/-- The class `[^\/\n\s]`. -/
def isSegChar (c : Char) : Bool := !(c == '/' || c == '\n' || isSpaceChar c)

/-- The class `[?&]`. -/
def isQueryMark (c : Char) : Bool := c == '?' || c == '&'

/-! ## Regular expressions and the backtracking matcher -/

/-- The fragment of ECMAScript patterns used by the source: the quantifiers
`*`, `+` and `{n}` are only ever applied to a character class. -/
inductive Regex where
  | eps : Regex
  | cls (p : Char → Bool) : Regex
  | seq (a b : Regex) : Regex
  | alt (a b : Regex) : Regex
  | opt (a : Regex) : Regex
  | star (p : Char → Bool) : Regex

namespace Regex

/-- A literal character. -/
def char (c : Char) : Regex := cls (fun x => x == c)

/-- A literal string. -/
def str : List Char → Regex
  | [] => eps
  | c :: cs => seq (char c) (str cs)

/-- Quantifier `+` on a class: one occurrence, then `*`. -/
def plus (p : Char → Bool) : Regex := seq (cls p) (star p)

/-- Quantifier `{n}` on a class. -/
def rep : Nat → (Char → Bool) → Regex
  | 0, _ => eps
  | n + 1, p => seq (cls p) (rep n p)

/-- Greedy `*` on a class: consume as long as possible, then give characters
back one at a time until the continuation succeeds. -/
def starRun {α : Type} (p : Char → Bool) : List Char → (List Char → Option α) → Option α
  | [], k => k []
  | c :: cs, k => if p c then (starRun p cs k).or (k (c :: cs)) else k (c :: cs)

/-- The matcher of a pattern: `run r s k` matches `r` at the start of `s` and
hands the rest of the input to the continuation `k`; a failing continuation
makes the matcher try its next choice. -/
def run {α : Type} : Regex → List Char → (List Char → Option α) → Option α
  | eps, s, k => k s
  | cls p, s, k =>
    match s with
    | [] => none
    | c :: cs => if p c then k cs else none
  | seq a b, s, k => run a s (fun s1 => run b s1 k)
  | alt a b, s, k => (run a s k).or (run b s k)
  | opt a, s, k => (run a s (fun s1 => if s1.length = s.length then none else k s1)).or (k s)
  | star p, s, k => starRun p s k

end Regex

open Regex in
/-- First alternative after the host, `[^\/\n\s]+\/\S+\/`. -/
def pathDeep : Regex :=
  seq (plus isSegChar) (seq (char '/') (seq (plus isNonSpace) (char '/')))

open Regex in
/-- Second alternative after the host, `(?:v|e(?:mbed)?|shorts)\/`. -/
def pathKind : Regex :=
  seq (alt (char 'v') (alt (seq (char 'e') (opt (str "mbed".toList))) (str "shorts".toList)))
    (char '/')

open Regex in
/-- Third alternative after the host, `.*[?&]v=`. -/
def pathQuery : Regex :=
  seq (star isDot) (seq (cls isQueryMark) (str "v=".toList))

open Regex in
/-- The part of the pattern before the capture group:
`(?:youtube\.com\/(?:[^\/\n\s]+\/\S+\/|(?:v|e(?:mbed)?|shorts)\/|.*[?&]v=)|youtu\.be\/)`. -/
def urlHead : Regex :=
  alt
    (seq (str "youtube.com/".toList) (alt pathDeep (alt pathKind pathQuery)))
    (str "youtu.be/".toList)

/-- The capture group `([\w-]{11})`. -/
def urlGroup : Regex := Regex.rep 11 isIdChar

/-- The capture group run at `s1`, as the last part of the pattern: on success
the text of capture group 1, which is what the group consumed. -/
def captureGroup (s1 : JSString) : Option JSString :=
  urlGroup.run s1 (fun s2 => some (s1.take (s1.length - s2.length)))

/-- The pattern anchored at the start of `s`: on success the text of capture
group 1. -/
def matchAt (s : JSString) : Option JSString :=
  urlHead.run s captureGroup

/-- `url.match(/.../)` for the non-global pattern: the match at the leftmost
start index that has one; the value is `match[1]`. -/
def urlMatch : JSString → Option JSString
  | [] => matchAt []
  | c :: cs => (matchAt (c :: cs)).or (urlMatch cs)

/-- `extractVideoId` of `api/summarize.js`: `match ? match[1] : url`. -/
def extractVideoId (url : JSString) : JSString :=
  match urlMatch url with
  | some id => id
  | none => url

/-! ## String operations -/

/-- `s.split(sep)` for a one-character separator: the pieces between the
occurrences of `sep`; the empty string gives one empty piece. -/
def split (sep : Char) : JSString → List JSString
  | [] => [[]]
  | c :: cs =>
    if c == sep then [] :: split sep cs
    else
      match split sep cs with
      | [] => [[c]]
      | w :: ws => (c :: w) :: ws

/-- `arr.join(sep)`. -/
def join (sep : JSString) : List JSString → JSString
  | [] => []
  | [w] => w
  | w :: v :: ws => w ++ sep ++ join sep (v :: ws)

/-- `arr.slice(i, j)` for `0 ≤ i ≤ j`. -/
def slice {α : Type} (xs : List α) (i j : Nat) : List α := (xs.drop i).take (j - i)

/-- Removal of leading `\s` characters. -/
def trimStart (s : JSString) : JSString := s.dropWhile isSpaceChar

/-- Removal of trailing `\s` characters. -/
def trimEnd (s : JSString) : JSString := (s.reverse.dropWhile isSpaceChar).reverse

/-- `s.trim()`. -/
def trim (s : JSString) : JSString := trimEnd (trimStart s)

/-! ## The fallback summary -/

/-- The JSON object of a result or response body; an absent key is `none`. -/
structure Json where
  error : Option JSString
  summary : Option JSString
  type : Option JSString
  note : Option JSString
  transcript : Option JSString
  deriving DecidableEq

/-- The object `{ error: msg }`. -/
def Json.ofError (msg : JSString) : Json :=
  ⟨some msg, none, none, none, none⟩

/-- The object `{ summary: s }`. -/
def Json.ofSummary (s : JSString) : Json :=
  ⟨none, some s, none, none, none⟩

/-- One turn of the loop `for (const word of words)`: the state is
`(bulletPoints, current)`. -/
def bulletStep (st : List JSString × List JSString) (word : JSString) :
    List JSString × List JSString :=
  let current := st.2 ++ [word]
  if current.length ≥ 15 then (st.1 ++ [join " ".toList current], []) else (st.1, current)

/-- The statement after the loop,
`if (current.length) bulletPoints.push(current.join(' '))`. -/
def bulletFinish (st : List JSString × List JSString) : List JSString :=
  if st.2.length ≠ 0 then st.1 ++ [join " ".toList st.2] else st.1

/-- The array `bulletPoints` built from `words` by the loop and the final push. -/
def bulletPoints (words : List JSString) : List JSString :=
  bulletFinish (words.foldl bulletStep ([], []))

/-- The string `basicSummary`: the first ten `.`-delimited pieces joined with
`'. '`, then `'.'`. -/
def basicSummary (cleaned : JSString) : JSString :=
  join ". ".toList ((split '.' cleaned).take 10) ++ ".".toList

/-- The bullets of the fallback summary of a text (before the marker is put in
front of each). -/
def fallbackBullets (transcriptText : JSString) : List JSString :=
  bulletPoints (split ' ' (basicSummary (trim transcriptText)))

/-- `fallbackSummary` of `api/summarize.js`. -/
def fallbackSummary (transcriptText : JSString) : Json :=
  let cleaned := trim transcriptText
  if cleaned = [] then Json.ofError "No content found in captions".toList
  else
    ⟨none,
     some (join "\n".toList ((fallbackBullets transcriptText).map (fun pt => "• ".toList ++ pt))),
     some "fallback".toList,
     some "📝 Simple summary (no AI used).".toList,
     none⟩

/-! ## The generation service and the summarize handler -/

/-- A call to an outside service made while a request is handled. -/
inductive Call where
  /-- The call `getTranscript(videoId)`. -/
  | transcript (videoId : JSString) : Call
  /-- The request `fetch(url, ...)` to the generation endpoint; the body is the
  JSON text of `contents: [parts: [text: prompt]]`. -/
  | generate (url : JSString) (prompt : JSString) : Call
  deriving DecidableEq

/-- What one `fetch` to the generation endpoint, followed by `resp.json()` and
the read of `data.candidates?.[0]?.content?.parts?.[0]?.text`, comes to. -/
inductive FetchOutcome where
  /-- The promise rejects (with `err.message`; empty when there is none). -/
  | throws (message : JSString) : FetchOutcome
  /-- The response has `resp.ok` false. -/
  | notOk : FetchOutcome
  /-- The response has `resp.ok` true; `text` is the candidate text, if any. -/
  | ok (text : Option JSString) : FetchOutcome
  deriving DecidableEq

/-- The surroundings of a request: the configured key and the two services. -/
structure World where
  /-- The value of `process.env.GEMINI_API_KEY`. -/
  apiKey : Option JSString
  /-- The call `getTranscript(videoId)`: the `text` of the caption lines, or a thrown
  error with its message. -/
  getTranscript : JSString → Except JSString (List JSString)
  /-- The outcome of the generation request number `n` (from 0) with the given prompt. -/
  fetch : Nat → JSString → FetchOutcome

/-- The constant `GEMINI_API_URL`. -/
def GEMINI_API_URL : JSString :=
  "https://generativelanguage.googleapis.com/v1beta/models/gemini-pro:generateContent".toList

/-- The key is usable: `GEMINI_API_KEY` is a non-empty string. -/
def World.hasKey (w : World) : Bool :=
  match w.apiKey with
  | none => false
  | some key => !key.isEmpty

/-- The prompt of `geminiSummarize` for a text and a tier. -/
def geminiPrompt (text type : JSString) : JSString :=
  if type = "fast".toList then
    "Summarize the following YouTube transcript in concise bullet points. Use LaTeX for any math. Limit to 8 points.\n\nTranscript:\n".toList ++ text
  else
    "Summarize the following YouTube transcript in detailed bullet points. Use LaTeX for any math. Cover all main ideas.\n\nTranscript:\n".toList ++ text

/-- The request URL of `geminiSummarize`. -/
def geminiUrl (w : World) : JSString :=
  GEMINI_API_URL ++ "?key=".toList ++ w.apiKey.getD []

/-- `geminiSummarize(text, type)` as generation request number `n`: the returned
object or the thrown error, and the requests issued. -/
def geminiSummarize (w : World) (n : Nat) (text type : JSString) :
    Except JSString Json × List Call :=
  if !w.hasKey then (Except.ok (Json.ofError "No Gemini API key set.".toList), [])
  else
    let prompt := geminiPrompt text type
    let call := Call.generate (geminiUrl w) prompt
    match w.fetch n prompt with
    | FetchOutcome.throws msg => (Except.error msg, [call])
    | FetchOutcome.notOk => (Except.ok (Json.ofError "Gemini API error".toList), [call])
    | FetchOutcome.ok text => (Except.ok (Json.ofSummary (text.getD [])), [call])

/-- The body of a request, `url` and `summary_type` being strings when present. -/
structure Body where
  url : Option JSString
  summary_type : Option JSString

/-- A request to a handler. -/
structure Request where
  method : JSString
  body : Option Body

/-- The request `POST` with the body `url`, `summary_type` (absent when `none`). -/
def postRequest (url : JSString) (summaryType : Option JSString) : Request :=
  ⟨"POST".toList, some ⟨some url, summaryType⟩⟩

/-- A response: `res.status(status).json(json)`. -/
structure Response where
  status : Nat
  json : Json
  deriving DecidableEq

/-- The message of a caught error, `err.message || dflt`. -/
def errMessage (message dflt : JSString) : JSString :=
  if message.isEmpty then dflt else message

/-- The text sent in fast mode, `transcriptText.split(' ').slice(0, 500).join(' ')`. -/
def first500 (transcriptText : JSString) : JSString :=
  join " ".toList (slice (split ' ' transcriptText) 0 500)

/-- The loop `for (let i = 0; i < words.length; i += 1000)` that fills `chunks`,
run for at most `fuel` turns from index `i`. -/
def chunkLoop (words : List JSString) : Nat → Nat → List JSString → List JSString
  | 0, _, chunks => chunks
  | fuel + 1, i, chunks =>
    if i < words.length then
      chunkLoop words fuel (i + 1000) (chunks ++ [join " ".toList (slice words i (i + 1000))])
    else chunks

/-- The array `chunks` of complete mode; `words.length` turns are enough for the
loop to end by its own test. -/
def transcriptChunks (transcriptText : JSString) : List JSString :=
  chunkLoop (split ' ' transcriptText) (split ' ' transcriptText).length 0 []

/-- The loop `for (const chunk of chunks)` of complete mode from the state
`(allSummaries, calls)`; a thrown error ends it. -/
def summarizeChunks (w : World) :
    List JSString → List JSString → List Call → Except JSString (List JSString) × List Call
  | [], allSummaries, calls => (Except.ok allSummaries, calls)
  | chunk :: rest, allSummaries, calls =>
    match geminiSummarize w calls.length chunk "complete".toList with
    | (Except.error msg, cs) => (Except.error msg, calls ++ cs)
    | (Except.ok result, cs) =>
      match result.summary with
      | some s =>
        if s.isEmpty then summarizeChunks w rest allSummaries (calls ++ cs)
        else summarizeChunks w rest (allSummaries ++ [s]) (calls ++ cs)
      | none => summarizeChunks w rest allSummaries (calls ++ cs)

/-- The non-empty summary that `geminiSummarize(chunk, 'complete')` returns as
request number `n`, if it returns one. -/
def chunkSummary (w : World) (n : Nat) (chunk : JSString) : Option JSString :=
  match (geminiSummarize w n chunk "complete".toList).1 with
  | Except.ok result => result.summary.filter (fun s => !s.isEmpty)
  | Except.error _ => none

/-- The handler of `api/summarize.js`: the response and the calls made, in order. -/
def handler (w : World) (req : Request) : Response × List Call :=
  if req.method ≠ "POST".toList then
    (⟨405, Json.ofError "Method not allowed".toList⟩, [])
  else
    let body := req.body.getD ⟨none, none⟩
    let summary_type := body.summary_type.getD "fast".toList
    let url := body.url.getD []
    if url.isEmpty then (⟨400, Json.ofError "Missing url".toList⟩, [])
    else
      let videoId := extractVideoId url
      if videoId.isEmpty then (⟨400, Json.ofError "Invalid YouTube URL".toList⟩, [])
      else
        match w.getTranscript videoId with
        | Except.error msg =>
          (⟨500, Json.ofError (errMessage msg "Failed to summarize".toList)⟩,
            [Call.transcript videoId])
        | Except.ok lines =>
          let transcriptText := join " ".toList lines
          if summary_type = "simple".toList then
            (⟨200, fallbackSummary transcriptText⟩, [Call.transcript videoId])
          else if summary_type = "fast".toList then
            match geminiSummarize w 0 (first500 transcriptText) "fast".toList with
            | (Except.error msg, cs) =>
              (⟨500, Json.ofError (errMessage msg "Failed to summarize".toList)⟩,
                Call.transcript videoId :: cs)
            | (Except.ok result, cs) => (⟨200, result⟩, Call.transcript videoId :: cs)
          else
            match summarizeChunks w (transcriptChunks transcriptText) [] [] with
            | (Except.error msg, cs) =>
              (⟨500, Json.ofError (errMessage msg "Failed to summarize".toList)⟩,
                Call.transcript videoId :: cs)
            | (Except.ok allSummaries, cs) =>
              (⟨200, Json.ofSummary (join "\n".toList allSummaries)⟩,
                Call.transcript videoId :: cs)

/-! ## The transcript handler and the client -/

/-- The inline extraction of `api/transcript.js`, with the same pattern literal:
`const videoId = match ? match[1] : url`. -/
def transcriptVideoId (url : JSString) : JSString :=
  match urlMatch url with
  | some id => id
  | none => url

/-- The object `{ transcript: t }`. -/
def Json.ofTranscript (t : JSString) : Json :=
  ⟨none, none, none, none, some t⟩

/-- The handler of `api/transcript.js`: the response and the calls made, in order. -/
def transcriptHandler (w : World) (req : Request) : Response × List Call :=
  if req.method ≠ "POST".toList then
    (⟨405, Json.ofError "Method not allowed".toList⟩, [])
  else
    let body := req.body.getD ⟨none, none⟩
    let url := body.url.getD []
    if url.isEmpty then (⟨400, Json.ofError "Missing url".toList⟩, [])
    else
      let videoId := transcriptVideoId url
      if videoId.isEmpty then (⟨400, Json.ofError "Invalid YouTube URL".toList⟩, [])
      else
        match w.getTranscript videoId with
        | Except.error msg =>
          (⟨500, Json.ofError (errMessage msg "Failed to fetch transcript".toList)⟩,
            [Call.transcript videoId])
        | Except.ok lines =>
          (⟨200, Json.ofTranscript (join " ".toList lines)⟩, [Call.transcript videoId])

/-- `extractYouTubeId` of `src/App.jsx`, with the same pattern literal:
`match ? match[1] : null`; `null` is `none`. -/
def extractYouTubeId (url : JSString) : Option JSString :=
  match urlMatch url with
  | some id => some id
  | none => none

/-- An item of a search result: `id.videoId` and the shown parts of `snippet`. -/
structure Suggestion where
  videoId : JSString
  title : JSString
  channelTitle : JSString
  thumbnail : JSString
  deriving DecidableEq

/-- The search from index `i` on of `arr.findIndex(p)`: the index of the first
element that satisfies `p`, or `-1`. -/
def findIndexFrom {α : Type} (p : α → Bool) : List α → Nat → Int
  | [], _ => -1
  | x :: xs, i => if p x then (i : Int) else findIndexFrom p xs (i + 1)

/-- `arr.findIndex(p)`. -/
def findIndex {α : Type} (p : α → Bool) (xs : List α) : Int := findIndexFrom p xs 0

/-- The walk of `self.filter((item, index, self) => f(item, index, self))` over
the rest of the array from index `i` on. -/
def filterFrom {α : Type} (f : α → Nat → List α → Bool) (self : List α) :
    List α → Nat → List α
  | [], _ => []
  | x :: xs, i =>
    if f x i self then x :: filterFrom f self xs (i + 1) else filterFrom f self xs (i + 1)

/-- `arr.filter((item, index, self) => f(item, index, self))`. -/
def filterWithIndex {α : Type} (f : α → Nat → List α → Bool) (self : List α) : List α :=
  filterFrom f self self 0

/-- The callback of the filter in `fetchHybridSuggestions`:
`item.id.videoId !== videoId && self.findIndex(s => s.id.videoId === item.id.videoId) === index`. -/
def keepSuggestion (videoId : JSString) (item : Suggestion) (index : Nat)
    (self : List Suggestion) : Bool :=
  (item.videoId != videoId &&
    findIndex (fun s => s.videoId == item.videoId) self == (index : Int))

/-- The array `allSuggestions`: the `items` of the three results, each `|| []`. -/
def allSuggestions (category channel keyword : Option (List Suggestion)) : List Suggestion :=
  category.getD [] ++ channel.getD [] ++ keyword.getD []

/-- The array `uniqueSuggestions` of `fetchHybridSuggestions`. -/
def uniqueSuggestions (videoId : JSString) (category channel keyword : Option (List Suggestion)) :
    List Suggestion :=
  slice (filterWithIndex (keepSuggestion videoId) (allSuggestions category channel keyword)) 0 12

/-! ## Sample surroundings -/

/-- A video URL. -/
def sampleUrl : JSString := "https://youtu.be/dQw4w9WgXcQ".toList

/-- A world with a key, a three-word transcript in two caption lines and a
generation service that answers every request with the text `S`. -/
def sampleWorld : World :=
  ⟨some "K".toList, fun _ => Except.ok ["a b".toList, "c".toList],
    fun _ _ => FetchOutcome.ok (some "S".toList)⟩

/-- The same world without a key. -/
def keylessWorld : World :=
  ⟨none, fun _ => Except.ok ["a b".toList, "c".toList],
    fun _ _ => FetchOutcome.ok (some "S".toList)⟩

/-- The same world with a generation service that answers with a non-success
status. -/
def failingWorld : World :=
  ⟨some "K".toList, fun _ => Except.ok ["a b".toList, "c".toList], fun _ _ => FetchOutcome.notOk⟩

/-- The same world with a generation service that cannot be reached: every
`fetch` rejects with the message `socket hang up`. -/
def throwingWorld : World :=
  ⟨some "K".toList, fun _ => Except.ok ["a b".toList, "c".toList],
    fun _ _ => FetchOutcome.throws "socket hang up".toList⟩

/-- A category result with the source video `x` in it. -/
def sampleCategory : Option (List Suggestion) :=
  some [⟨"a".toList, "A".toList, [], []⟩, ⟨"x".toList, "X".toList, [], []⟩]

/-- A keyword result that repeats the id `a`. -/
def sampleKeyword : Option (List Suggestion) :=
  some [⟨"b".toList, "B".toList, [], []⟩, ⟨"a".toList, "A again".toList, [], []⟩,
    ⟨"c".toList, "C".toList, [], []⟩]

/-! ## Specification-level functions -/

/-- Consecutive groups of `n` elements, the last one possibly shorter. -/
def chunks {α : Type} (n : Nat) (xs : List α) : List (List α) :=
  if _h : xs.length = 0 ∨ n = 0 then [] else xs.take n :: chunks n (xs.drop n)
termination_by xs.length
decreasing_by
  simp only [List.length_drop]
  omega

/-- A word ends before `cs`: the text ends there or goes on with whitespace. -/
def wordEnds : JSString → Bool
  | [] => true
  | d :: _ => isSpaceChar d

/-- The words of a text: its maximal runs of non-whitespace characters. -/
def wordsOf : JSString → List JSString
  | [] => []
  | c :: cs =>
    if isSpaceChar c then wordsOf cs
    else if wordEnds cs then [c] :: wordsOf cs
    else
      match wordsOf cs with
      | [] => [[c]]
      | w :: ws => (c :: w) :: ws

/-- The items kept when, going through a list, an item is dropped if its id is
in `seen` and every kept item's id is added to `seen`: for each id outside the
initial `seen`, its first occurrence. -/
def firstOccurrences (seen : List JSString) : List Suggestion → List Suggestion
  | [] => []
  | x :: xs =>
    if x.videoId ∈ seen then firstOccurrences seen xs
    else x :: firstOccurrences (x.videoId :: seen) xs

/-! ## The matcher: general facts -/

namespace Regex

theorem starRun_sound {α : Type} (p : Char → Bool) (k : List Char → Option α) (x : α) :
    ∀ s, starRun p s k = some x → ∃ t, t <:+ s ∧ k t = some x := by
  intro s
  induction s with
  | nil => intro h; exact ⟨[], List.suffix_refl _, h⟩
  | cons c cs ih =>
    intro h
    unfold starRun at h
    split at h
    · cases hs : starRun p cs k with
      | none => rw [hs] at h; exact ⟨c :: cs, List.suffix_refl _, by simpa using h⟩
      | some y =>
        rw [hs] at h
        have hy : y = x := by simpa using h
        subst hy
        obtain ⟨t, ht, hk⟩ := ih hs
        exact ⟨t, ht.trans (List.suffix_cons _ _), hk⟩
    · exact ⟨c :: cs, List.suffix_refl _, h⟩

/-- Soundness of the matcher: a successful run hands some suffix of the input
to its continuation and returns what the continuation returned there. -/
theorem run_sound {α : Type} (r : Regex) :
    ∀ (s : List Char) (k : List Char → Option α) (x : α),
      r.run s k = some x → ∃ t, t <:+ s ∧ k t = some x := by
  induction r with
  | eps => intro s k x h; exact ⟨s, List.suffix_refl _, h⟩
  | cls p =>
    intro s k x h
    cases s with
    | nil => simp [run] at h
    | cons c cs =>
      simp only [run] at h
      split at h
      · exact ⟨cs, List.suffix_cons _ _, h⟩
      · cases h
  | seq a b iha ihb =>
    intro s k x h
    obtain ⟨t, ht, h1⟩ := iha s _ x h
    obtain ⟨u, hu, h2⟩ := ihb t k x h1
    exact ⟨u, hu.trans ht, h2⟩
  | alt a b iha ihb =>
    intro s k x h
    simp only [run] at h
    cases ha : a.run s k with
    | none => rw [ha] at h; exact ihb s k x (by simpa using h)
    | some y => rw [ha] at h; exact iha s k x (by simpa [ha] using h)
  | opt a iha =>
    intro s k x h
    simp only [run] at h
    cases ha : a.run s (fun s1 => if s1.length = s.length then none else k s1) with
    | none => rw [ha] at h; exact ⟨s, List.suffix_refl _, by simpa using h⟩
    | some y =>
      rw [ha] at h
      have hy : y = x := by simpa using h
      subst hy
      obtain ⟨t, ht, hk⟩ := iha s _ y ha
      refine ⟨t, ht, ?_⟩
      split at hk
      · cases hk
      · exact hk
  | star p => intro s k x h; exact starRun_sound p k x s h

/-- A matcher whose continuation fails on every suffix of the input fails. -/
theorem run_eq_none {α : Type} (r : Regex) (s : List Char) (k : List Char → Option α)
    (h : ∀ t, t <:+ s → k t = none) : r.run s k = none := by
  cases hr : r.run s k with
  | none => rfl
  | some x =>
    obtain ⟨t, ht, hk⟩ := run_sound r s k x hr
    rw [h t ht] at hk
    cases hk

/-- A literal string in front of the input is consumed. -/
theorem run_str_append {α : Type} (w t : List Char) (k : List Char → Option α) :
    (str w).run (w ++ t) k = k t := by
  induction w with
  | nil => rfl
  | cons c cs ih => simpa [str, run, char] using ih

/-- A literal string matches only an input that starts with it. -/
theorem run_str_some {α : Type} (w : List Char) :
    ∀ (s : List Char) (k : List Char → Option α) (x : α),
      (str w).run s k = some x → ∃ t, s = w ++ t ∧ k t = some x := by
  induction w with
  | nil => intro s k x h; exact ⟨s, rfl, h⟩
  | cons c cs ih =>
    intro s k x h
    cases s with
    | nil => simp [str, run, char] at h
    | cons d ds =>
      simp only [str, run, char] at h
      split at h
      · rename_i hd
        obtain ⟨t, ht, hk⟩ := ih ds k x h
        have hdc : d = c := by simpa using hd
        exact ⟨t, by rw [ht, hdc]; rfl, hk⟩
      · cases h

/-- The quantifier `{n}` consumes `n` characters of the class. -/
theorem run_rep_append {α : Type} (p : Char → Bool) (w t : List Char)
    (k : List Char → Option α) (hw : ∀ c ∈ w, p c = true) :
    (rep w.length p).run (w ++ t) k = k t := by
  induction w with
  | nil => rfl
  | cons c cs ih =>
    have hc : p c = true := hw c (List.mem_cons_self _ _)
    have hcs : ∀ d ∈ cs, p d = true := fun d hd => hw d (List.mem_cons_of_mem _ hd)
    simpa [rep, run, hc] using ih hcs

/-- The quantifier `{n}` matches only `n` characters of the class. -/
theorem run_rep_some {α : Type} (p : Char → Bool) (n : Nat) :
    ∀ (s : List Char) (k : List Char → Option α) (x : α),
      (rep n p).run s k = some x →
        ∃ w t, s = w ++ t ∧ w.length = n ∧ (∀ c ∈ w, p c = true) ∧ k t = some x := by
  induction n with
  | zero => intro s k x h; exact ⟨[], s, rfl, rfl, by simp, h⟩
  | succ n ih =>
    intro s k x h
    cases s with
    | nil => simp [rep, run] at h
    | cons d ds =>
      simp only [rep, run] at h
      split at h
      · rename_i hd
        obtain ⟨w, t, hs, hl, hp, hk⟩ := ih ds k x h
        refine ⟨d :: w, t, by rw [hs]; rfl, by simp [hl], ?_, hk⟩
        intro c hc
        rcases List.mem_cons.mp hc with rfl | hc
        · exact hd
        · exact hp c hc
      · cases h

/-- Greedy `*`: when the continuation fails at every position after `b`, the
star run over `b` is decided at `b` itself. -/
theorem starRun_of_tail_none {α : Type} (p : Char → Bool) (b : List Char)
    (k : List Char → Option α) (h : ∀ t, t <:+ b → t ≠ b → k t = none) :
    starRun p b k = k b := by
  cases b with
  | nil => rfl
  | cons c cs =>
    have hcs : starRun p cs k = none := by
      have := run_eq_none (star p) cs k (fun t ht => h t (ht.trans (List.suffix_cons _ _)) (by
        intro he
        have hl := ht.length_le
        rw [he] at hl
        simp at hl))
      simpa [run] using this
    unfold starRun
    split
    · rw [hcs]; rfl
    · rfl

/-- Greedy `*` prefers the longest consumption: over `a ++ b` with `a` in the
class, the first success is at `b` when the continuation fails after `b`. -/
theorem starRun_append {α : Type} (p : Char → Bool) (a b : List Char)
    (k : List Char → Option α) (x : α) (ha : ∀ c ∈ a, p c = true)
    (h : ∀ t, t <:+ b → t ≠ b → k t = none) (hb : k b = some x) :
    starRun p (a ++ b) k = some x := by
  induction a with
  | nil => simpa [starRun_of_tail_none p b k h] using hb
  | cons c cs ih =>
    have hc : p c = true := ha c (List.mem_cons_self _ _)
    have hcs : ∀ d ∈ cs, p d = true := fun d hd => ha d (List.mem_cons_of_mem _ hd)
    show starRun p (c :: (cs ++ b)) k = some x
    unfold starRun
    rw [if_pos hc, ih hcs]
    rfl

end Regex

/-! ## Identifier extraction -/

theorem isIdChar_ne_slash {c : Char} (h : isIdChar c = true) : c ≠ '/' := by
  intro e; subst e; revert h; decide

theorem isIdChar_not_queryMark {c : Char} (h : isIdChar c = true) : isQueryMark c = false := by
  cases hq : isQueryMark c with
  | false => rfl
  | true =>
    have : c = '?' ∨ c = '&' := by simpa [isQueryMark] using hq
    rcases this with rfl | rfl <;> revert h <;> decide

/-- The capture group takes an 11-character identifier in front of the input. -/
theorem captureGroup_append (id t : JSString) (hlen : id.length = 11)
    (hid : ∀ c ∈ id, isIdChar c = true) : captureGroup (id ++ t) = some id := by
  unfold captureGroup urlGroup
  rw [← hlen, Regex.run_rep_append isIdChar id t _ hid]
  simp

/-- What the capture group returns is 11 identifier characters in front of the input. -/
theorem captureGroup_some (s x : JSString) (h : captureGroup s = some x) :
    ∃ t, s = x ++ t ∧ x.length = 11 ∧ ∀ c ∈ x, isIdChar c = true := by
  unfold captureGroup urlGroup at h
  obtain ⟨w, t, hs, hl, hp, hk⟩ := Regex.run_rep_some isIdChar 11 s _ x h
  have hx : w = x := by
    have := Option.some.inj hk
    rw [← this, hs]
    simp
  subst hx
  exact ⟨t, hs, hl, hp⟩

/-- The first character of a suffix of `s` is a character of `s`. -/
theorem head_mem_of_suffix {t s : JSString} (h : t <:+ s) : ∀ c ∈ t.head?, c ∈ s := by
  intro c hc
  cases t with
  | nil => simp at hc
  | cons d ds =>
    have : c = d := by simpa using hc.symm
    subst this
    exact h.subset (List.mem_cons_self _ _)

/-- The pattern can only match where the input has the letter `y`. -/
theorem matchAt_cons_ne (c : Char) (cs : JSString) (h : c ≠ 'y') : matchAt (c :: cs) = none := by
  simp [matchAt, urlHead, Regex.run, Regex.str, Regex.char, h]

theorem urlMatch_cons_ne (c : Char) (cs : JSString) (h : c ≠ 'y') :
    urlMatch (c :: cs) = urlMatch cs := by
  simp [urlMatch, matchAt_cons_ne c cs h]

theorem urlMatch_of_matchAt (s x : JSString) (h : matchAt s = some x) : urlMatch s = some x := by
  cases s with
  | nil => simpa [urlMatch] using h
  | cons c cs => simp [urlMatch, h]


theorem run_seq {α : Type} (a b : Regex) (s : JSString) (k : JSString → Option α) :
    (Regex.seq a b).run s k = a.run s (fun s1 => b.run s1 k) := rfl

theorem run_alt {α : Type} (a b : Regex) (s : JSString) (k : JSString → Option α) :
    (Regex.alt a b).run s k = (a.run s k).or (b.run s k) := rfl

theorem run_star {α : Type} (p : Char → Bool) (s : JSString) (k : JSString → Option α) :
    (Regex.star p).run s k = Regex.starRun p s k := rfl

theorem run_cls_seq_none {α : Type} (p : Char → Bool) (r : Regex) (s : JSString)
    (k : JSString → Option α) (h : ∀ c ∈ s.head?, p c = false) :
    (Regex.seq (Regex.cls p) r).run s k = none := by
  cases s with
  | nil => rfl
  | cons c cs =>
    have hc : p c = false := h c (by simp)
    simp [Regex.run, hc]

/-- After the host `youtube.com/` the three path alternatives are tried in order. -/
theorem matchAt_youtube (t : JSString) :
    matchAt ("youtube.com/".toList ++ t) =
      (pathDeep.run t captureGroup).or ((pathKind.run t captureGroup).or
        (pathQuery.run t captureGroup)) := by
  have e : (Regex.str "youtu.be/".toList).run ("youtube.com/".toList ++ t) captureGroup = none := by
    show (Regex.str "youtu.be/".toList).run ('y' :: 'o' :: 'u' :: 't' :: 'u' :: 'b' :: _) captureGroup = none
    simp [Regex.run, Regex.str, Regex.char]
  unfold matchAt urlHead
  rw [run_alt, run_seq, Regex.run_str_append, e, run_alt, run_alt]
  simp

theorem matchAt_youtu_be (t : JSString) :
    matchAt ("youtu.be/".toList ++ t) = captureGroup t := by
  have e : ∀ r : Regex, (Regex.seq (Regex.str "youtube.com/".toList) r).run ("youtu.be/".toList ++ t) captureGroup = none := by
    intro r
    show (Regex.seq (Regex.str "youtube.com/".toList) r).run ('y' :: 'o' :: 'u' :: 't' :: 'u' :: '.' :: _) captureGroup = none
    simp [Regex.run, Regex.str, Regex.char]
  unfold matchAt urlHead
  rw [run_alt, e, Regex.run_str_append]
  simp

theorem pathQuery_watch (id : JSString) (hlen : id.length = 11)
    (hid : ∀ c ∈ id, isIdChar c = true) :
    pathQuery.run ("watch?v=".toList ++ id) captureGroup = some id := by
  have h3 : Regex.starRun isDot ("watch".toList ++ ('?' :: 'v' :: '=' :: id))
      (fun s1 => (Regex.seq (Regex.cls isQueryMark) (Regex.str "v=".toList)).run s1 captureGroup)
      = some id := by
    apply Regex.starRun_append
    · decide
    · intro t ht hne
      apply run_cls_seq_none
      rcases List.suffix_cons_iff.mp ht with h | ht
      · exact absurd h hne
      rcases List.suffix_cons_iff.mp ht with h | ht
      · subst h; simp; decide
      rcases List.suffix_cons_iff.mp ht with h | ht
      · subst h; simp; decide
      intro c hc
      exact isIdChar_not_queryMark (hid c (head_mem_of_suffix ht c hc))
    · have := captureGroup_append id [] hlen hid
      simpa [Regex.run, Regex.str, Regex.char, isQueryMark] using this
  unfold pathQuery
  rw [run_seq, run_star]
  exact h3


theorem run_char_some {α : Type} (d : Char) (s : JSString) (k : JSString → Option α) (x : α)
    (h : (Regex.char d).run s k = some x) : ∃ t, s = d :: t ∧ k t = some x := by
  cases s with
  | nil => simp [Regex.run, Regex.char] at h
  | cons c cs =>
    simp only [Regex.run, Regex.char] at h
    split at h
    · rename_i hc
      have : c = d := by simpa using hc
      exact ⟨cs, by rw [this], h⟩
    · cases h

/-- The first path alternative needs two `/` in the input after the host. -/
theorem pathDeep_some {α : Type} (s : JSString) (k : JSString → Option α) (x : α)
    (h : pathDeep.run s k = some x) : 2 ≤ s.count '/' := by
  unfold pathDeep at h
  rw [run_seq] at h
  obtain ⟨t, ht, h1⟩ := Regex.run_sound _ s _ x h
  rw [run_seq] at h1
  obtain ⟨t1, rfl, h2⟩ := run_char_some '/' t _ x h1
  rw [run_seq] at h2
  obtain ⟨u, hu, h3⟩ := Regex.run_sound _ t1 _ x h2
  obtain ⟨u1, rfl, -⟩ := run_char_some '/' u _ x h3
  have c1 := ht.sublist.count_le '/'
  have c2 := hu.sublist.count_le '/'
  simp only [List.count_cons_self] at c1 c2
  omega

theorem pathDeep_none {α : Type} (s : JSString) (k : JSString → Option α)
    (h : s.count '/' < 2) : pathDeep.run s k = none := by
  cases hr : pathDeep.run s k with
  | none => rfl
  | some x => have := pathDeep_some s k x hr; omega

theorem count_slash_id (id : JSString) (hid : ∀ c ∈ id, isIdChar c = true) :
    id.count '/' = 0 :=
  List.count_eq_zero.mpr (fun hm => isIdChar_ne_slash (hid _ hm) rfl)

theorem matchAt_watch (id : JSString) (hlen : id.length = 11)
    (hid : ∀ c ∈ id, isIdChar c = true) :
    matchAt ("youtube.com/".toList ++ ("watch?v=".toList ++ id)) = some id := by
  rw [matchAt_youtube, pathQuery_watch id hlen hid, pathDeep_none]
  · have : pathKind.run ("watch?v=".toList ++ id) captureGroup = none := by
      show pathKind.run ('w' :: _) captureGroup = none
      simp [pathKind, Regex.run, Regex.str, Regex.char]
    rw [this]; rfl
  · have := count_slash_id id hid
    show List.count '/' ('w' :: 'a' :: 't' :: 'c' :: 'h' :: '?' :: 'v' :: '=' :: id) < 2
    simp [List.count_cons, this]

theorem matchAt_embed (id : JSString) (hlen : id.length = 11)
    (hid : ∀ c ∈ id, isIdChar c = true) :
    matchAt ("youtube.com/".toList ++ ("embed/".toList ++ id)) = some id := by
  rw [matchAt_youtube, pathDeep_none]
  · have : pathKind.run ("embed/".toList ++ id) captureGroup = captureGroup id := by
      show pathKind.run ('e' :: 'm' :: 'b' :: 'e' :: 'd' :: '/' :: id) captureGroup = _
      simp [pathKind, Regex.run, Regex.str, Regex.char]
    rw [this]
    have := captureGroup_append id [] hlen hid
    simp at this
    rw [this]; rfl
  · have := count_slash_id id hid
    show List.count '/' ('e' :: 'm' :: 'b' :: 'e' :: 'd' :: '/' :: id) < 2
    simp [List.count_cons, this]

theorem matchAt_shorts (id : JSString) (hlen : id.length = 11)
    (hid : ∀ c ∈ id, isIdChar c = true) :
    matchAt ("youtube.com/".toList ++ ("shorts/".toList ++ id)) = some id := by
  rw [matchAt_youtube, pathDeep_none]
  · have : pathKind.run ("shorts/".toList ++ id) captureGroup = captureGroup id := by
      show pathKind.run ('s' :: 'h' :: 'o' :: 'r' :: 't' :: 's' :: '/' :: id) captureGroup = _
      simp [pathKind, Regex.run, Regex.str, Regex.char]
    rw [this]
    have := captureGroup_append id [] hlen hid
    simp at this
    rw [this]; rfl
  · have := count_slash_id id hid
    show List.count '/' ('s' :: 'h' :: 'o' :: 'r' :: 't' :: 's' :: '/' :: id) < 2
    simp [List.count_cons, this]

/-- C1. For every 11-character identifier over `[A-Za-z0-9_-]`, `extractVideoId`
returns exactly the identifier for the watch, embed, shorts and short-link URL
shapes. -/
theorem extractVideoId_supported_shapes (id : JSString) (hlen : id.length = 11)
    (hid : ∀ c ∈ id, isIdChar c = true) :
    extractVideoId ("https://www.youtube.com/watch?v=".toList ++ id) = id ∧
    extractVideoId ("https://www.youtube.com/embed/".toList ++ id) = id ∧
    extractVideoId ("https://www.youtube.com/shorts/".toList ++ id) = id ∧
    extractVideoId ("https://youtu.be/".toList ++ id) = id := by
  have strip : ∀ t : JSString, urlMatch ("https://www.".toList ++ t) = urlMatch t := by
    intro t
    show urlMatch ('h' :: 't' :: 't' :: 'p' :: 's' :: ':' :: '/' :: '/' :: 'w' :: 'w' :: 'w' :: '.' :: t) = _
    simp [urlMatch_cons_ne]
  have strip2 : ∀ t : JSString, urlMatch ("https://".toList ++ t) = urlMatch t := by
    intro t
    show urlMatch ('h' :: 't' :: 't' :: 'p' :: 's' :: ':' :: '/' :: '/' :: t) = _
    simp [urlMatch_cons_ne]
  refine ⟨?_, ?_, ?_, ?_⟩
  · have e : "https://www.youtube.com/watch?v=".toList ++ id
        = "https://www.".toList ++ ("youtube.com/".toList ++ ("watch?v=".toList ++ id)) := rfl
    unfold extractVideoId
    rw [e, strip, urlMatch_of_matchAt _ _ (matchAt_watch id hlen hid)]
  · have e : "https://www.youtube.com/embed/".toList ++ id
        = "https://www.".toList ++ ("youtube.com/".toList ++ ("embed/".toList ++ id)) := rfl
    unfold extractVideoId
    rw [e, strip, urlMatch_of_matchAt _ _ (matchAt_embed id hlen hid)]
  · have e : "https://www.youtube.com/shorts/".toList ++ id
        = "https://www.".toList ++ ("youtube.com/".toList ++ ("shorts/".toList ++ id)) := rfl
    unfold extractVideoId
    rw [e, strip, urlMatch_of_matchAt _ _ (matchAt_shorts id hlen hid)]
  · have e : "https://youtu.be/".toList ++ id
        = "https://".toList ++ ("youtu.be/".toList ++ id) := rfl
    have h := captureGroup_append id [] hlen hid
    simp only [List.append_nil] at h
    unfold extractVideoId
    rw [e, strip2, urlMatch_of_matchAt _ id (by rw [matchAt_youtu_be]; exact h)]

/-- C1, at the identifier `dQw4w9WgXcQ`. -/
theorem extractVideoId_supported_shapes_witness :
    extractVideoId "https://youtu.be/dQw4w9WgXcQ".toList = "dQw4w9WgXcQ".toList :=
  (extractVideoId_supported_shapes "dQw4w9WgXcQ".toList (by decide) (by decide)).2.2.2


/-- A match of the pattern found by the search starts at some suffix of the input. -/
theorem urlMatch_some (s x : JSString) (h : urlMatch s = some x) :
    ∃ t, t <:+ s ∧ matchAt t = some x := by
  induction s with
  | nil => exact ⟨[], List.suffix_refl _, by simpa [urlMatch] using h⟩
  | cons c cs ih =>
    unfold urlMatch at h
    cases hm : matchAt (c :: cs) with
    | some y =>
      rw [hm] at h
      exact ⟨c :: cs, List.suffix_refl _, by rw [hm]; simpa using h⟩
    | none =>
      rw [hm] at h
      obtain ⟨t, ht, hx⟩ := ih (by simpa using h)
      exact ⟨t, ht.trans (List.suffix_cons _ _), hx⟩

/-- Where the pattern matches, the input starts with one of the two hosts and the
captured text is 11 identifier characters found after it. -/
theorem matchAt_some (t x : JSString) (h : matchAt t = some x) :
    ("youtube.com/".toList <+: t ∨ "youtu.be/".toList <+: t) ∧
      ∃ u v, u ++ x ++ v = t ∧ u ≠ [] ∧ x.length = 11 ∧ ∀ c ∈ x, isIdChar c = true := by
  have hcap : ∀ w r : JSString, w ≠ [] → captureGroup r = some x →
      ∃ u v, u ++ x ++ v = w ++ r ∧ u ≠ [] ∧ x.length = 11 ∧ ∀ c ∈ x, isIdChar c = true := by
    intro w r hw hr
    obtain ⟨v, hv, hl, hp⟩ := captureGroup_some r x hr
    exact ⟨w, v, by rw [hv, List.append_assoc], hw, hl, hp⟩
  unfold matchAt urlHead at h
  rw [run_alt] at h
  cases h1 : (Regex.seq (Regex.str "youtube.com/".toList)
      (Regex.alt pathDeep (Regex.alt pathKind pathQuery))).run t captureGroup with
  | some y =>
    rw [h1] at h
    have hy : y = x := by simpa using h
    subst hy
    rw [run_seq] at h1
    obtain ⟨t1, rfl, h2⟩ := Regex.run_str_some _ t _ y h1
    obtain ⟨t2, ⟨p, hp⟩, h3⟩ := Regex.run_sound _ t1 _ y h2
    refine ⟨Or.inl (List.prefix_append _ _), ?_⟩
    subst hp
    obtain ⟨u, v, e, hu, r⟩ := hcap ("youtube.com/".toList ++ p) t2 (by simp) h3
    exact ⟨u, v, by rw [e, List.append_assoc], hu, r⟩
  | none =>
    rw [h1] at h
    obtain ⟨t1, rfl, h2⟩ := Regex.run_str_some _ t _ x (by simpa using h)
    exact ⟨Or.inr (List.prefix_append _ _), hcap _ t1 (by simp) h2⟩

/-- An input on which the pattern matches contains one of the two hosts. -/
theorem urlMatch_some_infix (s x : JSString) (h : urlMatch s = some x) :
    "youtube.com/".toList <:+: s ∨ "youtu.be/".toList <:+: s := by
  obtain ⟨t, ht, hm⟩ := urlMatch_some s x h
  rcases (matchAt_some t x hm).1 with hp | hp
  · exact Or.inl (hp.isInfix.trans ht.isInfix)
  · exact Or.inr (hp.isInfix.trans ht.isInfix)

/-- C2. Where the URL pattern does not match, `extractVideoId` returns its input
unchanged; in particular an input that contains neither `youtube.com/` nor
`youtu.be/` is returned as given. -/
theorem extractVideoId_passthrough (url : JSString) :
    (urlMatch url = none → extractVideoId url = url) ∧
    (¬ "youtube.com/".toList <:+: url → ¬ "youtu.be/".toList <:+: url →
      extractVideoId url = url) := by
  have h1 : urlMatch url = none → extractVideoId url = url := by
    intro h; unfold extractVideoId; rw [h]
  refine ⟨h1, fun ha hb => h1 ?_⟩
  cases hm : urlMatch url with
  | none => rfl
  | some x => rcases urlMatch_some_infix url x hm with h | h <;> contradiction

/-- C2, at the bare identifier `dQw4w9WgXcQ` and at a string that is no URL. -/
theorem extractVideoId_passthrough_witness :
    extractVideoId "dQw4w9WgXcQ".toList = "dQw4w9WgXcQ".toList ∧
    extractVideoId "not a video".toList = "not a video".toList :=
  ⟨(extractVideoId_passthrough "dQw4w9WgXcQ".toList).2 (by decide) (by decide),
   (extractVideoId_passthrough "not a video".toList).1 (by decide)⟩

/-! ## Grouping, splitting and joining -/

theorem chunks_nil {α : Type} (n : Nat) : chunks n ([] : List α) = [] := by
  rw [chunks]; simp

theorem chunks_of_ne {α : Type} (n : Nat) (xs : List α) (hx : xs ≠ []) (hn : 0 < n) :
    chunks n xs = xs.take n :: chunks n (xs.drop n) := by
  rw [chunks]
  have : ¬ (xs.length = 0 ∨ n = 0) := by
    have h1 : 0 < xs.length := List.length_pos.mpr hx
    omega
  rw [dif_neg this]

theorem chunks_flatten {α : Type} (n : Nat) (hn : 0 < n) (xs : List α) :
    (chunks n xs).flatten = xs := by
  generalize h : xs.length = m
  induction m using Nat.strong_induction_on generalizing xs with
  | _ m ih =>
    by_cases hx : xs = []
    · subst hx; simp [chunks_nil]
    · rw [chunks_of_ne n xs hx hn, List.flatten_cons, ih _ _ _ rfl, List.take_append_drop]
      have h1 : 0 < xs.length := List.length_pos.mpr hx
      simp only [List.length_drop]; omega

theorem chunks_length {α : Type} (n : Nat) (hn : 0 < n) (xs : List α) :
    (chunks n xs).length = (xs.length + n - 1) / n := by
  generalize h : xs.length = m
  induction m using Nat.strong_induction_on generalizing xs with
  | _ m ih =>
    by_cases hx : xs = []
    · subst hx; subst h
      simp only [chunks_nil, List.length_nil]
      symm; apply Nat.div_eq_of_lt; omega
    · have h1 : 0 < xs.length := List.length_pos.mpr hx
      rw [chunks_of_ne n xs hx hn, List.length_cons, ih _ _ _ rfl]
      · simp only [List.length_drop]
        subst h
        by_cases hle : xs.length ≤ n
        · have e1 : xs.length - n = 0 := by omega
          rw [e1]
          have : (0 + n - 1) / n = 0 := by
            apply Nat.div_eq_of_lt; omega
          rw [this]
          symm
          apply Nat.div_eq_of_lt_le <;> omega
        · have e : xs.length + n - 1 = (xs.length - n + n - 1) + n := by omega
          rw [e, Nat.add_div_right _ hn]
      · simp only [List.length_drop]; omega

/-- Every group but the last has exactly `n` elements; the last has between 1 and `n`. -/
theorem chunks_sizes {α : Type} (n : Nat) (hn : 0 < n) (xs : List α) :
    (∀ g ∈ (chunks n xs).dropLast, g.length = n) ∧
    (∀ g ∈ (chunks n xs).getLast?, 1 ≤ g.length ∧ g.length ≤ n) := by
  generalize h : xs.length = m
  induction m using Nat.strong_induction_on generalizing xs with
  | _ m ih =>
    by_cases hx : xs = []
    · subst hx; simp [chunks_nil]
    · have h1 : 0 < xs.length := List.length_pos.mpr hx
      have hd : (xs.drop n).length < m := by simp only [List.length_drop]; omega
      obtain ⟨ih1, ih2⟩ := ih _ hd (xs.drop n) rfl
      rw [chunks_of_ne n xs hx hn]
      by_cases hr : xs.drop n = []
      · rw [hr, chunks_nil]
        have : xs.length ≤ n := by simpa using hr
        simp [List.length_take]
        omega
      · have hne : chunks n (xs.drop n) ≠ [] := by
          rw [chunks_of_ne n _ hr hn]; simp
        have hlt : n < xs.length := by
          by_contra hc
          exact hr (List.drop_eq_nil_of_le (by omega))
        constructor
        · intro g hg
          rw [List.dropLast_cons_of_ne_nil hne] at hg
          rcases List.mem_cons.mp hg with rfl | hg
          · simp [List.length_take]; omega
          · exact ih1 g hg
        · intro g hg
          obtain ⟨y, ys, hy⟩ := List.exists_cons_of_ne_nil hne
          rw [hy, List.getLast?_cons_cons] at hg
          rw [hy] at ih2
          exact ih2 g hg

theorem split_ne_nil (sep : Char) (s : JSString) : split sep s ≠ [] := by
  cases s with
  | nil => simp [split]
  | cons c cs =>
    unfold split
    split
    · simp
    · split <;> simp

/-- No piece of a split contains the separator. -/
theorem not_mem_of_mem_split (sep : Char) (s : JSString) :
    ∀ w ∈ split sep s, sep ∉ w := by
  induction s with
  | nil => intro w hw; simp [split] at hw; simp [hw]
  | cons c cs ih =>
    intro w hw
    unfold split at hw
    split at hw
    · rcases List.mem_cons.mp hw with rfl | hw
      · simp
      · exact ih w hw
    · rename_i hc
      have hne : ¬ (sep = c) := fun e => hc (by simp [e])
      split at hw
      · have : w = [c] := by simpa using hw
        subst this; simpa using hne
      · rename_i v vs hv
        rcases List.mem_cons.mp hw with rfl | hw
        · have := ih v (by rw [hv]; exact List.mem_cons_self _ _)
          simp [hne, this]
        · exact ih w (by rw [hv]; exact List.mem_cons_of_mem _ hw)

/-- Joining the pieces of a split with the separator gives the text back. -/
theorem join_split (sep : Char) (s : JSString) : join [sep] (split sep s) = s := by
  induction s with
  | nil => rfl
  | cons c cs ih =>
    unfold split
    split
    · rename_i hc
      have hc : c = sep := by simpa using hc
      obtain ⟨v, vs, hv⟩ := List.exists_cons_of_ne_nil (split_ne_nil sep cs)
      rw [hv] at ih ⊢
      simp [join, ih, hc]
    · split
      · rename_i h; exact absurd h (split_ne_nil sep cs)
      · rename_i v vs hv
        rw [hv] at ih
        cases vs with
        | nil => simp [join] at ih ⊢; exact ih
        | cons u us => simp [join] at ih ⊢; exact ih

theorem join_cons_of_ne (sep : JSString) (w : JSString) (ws : List JSString) (h : ws ≠ []) :
    join sep (w :: ws) = w ++ sep ++ join sep ws := by
  obtain ⟨v, vs, rfl⟩ := List.exists_cons_of_ne_nil h
  rfl

theorem split_append_sep (sep : Char) (w s : JSString) (hw : sep ∉ w) :
    split sep (w ++ sep :: s) = w :: split sep s := by
  induction w with
  | nil => simp [split]
  | cons c cs ih =>
    have hc : ¬ (c = sep) := fun e => hw (by simp [e])
    have hcs : sep ∉ cs := fun h => hw (List.mem_cons_of_mem _ h)
    show split sep (c :: (cs ++ sep :: s)) = _
    simp [split, hc, ih hcs]

theorem split_of_not_mem (sep : Char) (w : JSString) (hw : sep ∉ w) : split sep w = [w] := by
  induction w with
  | nil => rfl
  | cons c cs ih =>
    have hc : ¬ (c = sep) := fun e => hw (by simp [e])
    have hcs : sep ∉ cs := fun h => hw (List.mem_cons_of_mem _ h)
    simp [split, hc, ih hcs]

/-- Splitting a join of separator-free pieces gives the pieces back. -/
theorem split_join (sep : Char) (ws : List JSString) (hne : ws ≠ [])
    (h : ∀ w ∈ ws, sep ∉ w) : split sep (join [sep] ws) = ws := by
  induction ws with
  | nil => exact absurd rfl hne
  | cons w ws ih =>
    have hw := h w (List.mem_cons_self _ _)
    by_cases hws : ws = []
    · subst hws; simpa [join] using split_of_not_mem sep w hw
    · rw [join_cons_of_ne _ _ _ hws]
      have := ih hws (fun v hv => h v (List.mem_cons_of_mem _ hv))
      simp only [List.append_assoc, List.singleton_append]
      rw [split_append_sep sep w _ hw, this]

theorem join_append (sep : JSString) (a b : List JSString) (ha : a ≠ []) (hb : b ≠ []) :
    join sep (a ++ b) = join sep a ++ sep ++ join sep b := by
  induction a with
  | nil => exact absurd rfl ha
  | cons w ws ih =>
    by_cases hws : ws = []
    · subst hws
      simp [join_cons_of_ne _ _ _ hb, join]
    · have : ws ++ b ≠ [] := by simp [hws]
      rw [List.cons_append, join_cons_of_ne _ _ _ this, ih hws, join_cons_of_ne _ _ _ hws]
      simp [List.append_assoc]

/-! ## The fallback summary -/

theorem chunks_short {α : Type} (n : Nat) (xs : List α) (hx : xs ≠ []) (hn : xs.length ≤ n) :
    chunks n xs = [xs] := by
  have h0 : 0 < n := by
    have := List.length_pos.mpr hx
    omega
  rw [chunks_of_ne n xs hx h0, List.take_of_length_le hn, List.drop_eq_nil_of_le hn, chunks_nil]

/-- The loop over the words, started in any state with fewer than 15 pending
words, pushes the groups of 15 of the pending words followed by the remaining ones. -/
theorem bulletLoop_eq_chunks (ws : List JSString) :
    ∀ (bp cur : List JSString), cur.length < 15 →
      bulletFinish (ws.foldl bulletStep (bp, cur)) =
        bp ++ (chunks 15 (cur ++ ws)).map (join " ".toList) := by
  induction ws with
  | nil =>
    intro bp cur hc
    simp only [List.foldl_nil, List.append_nil, bulletFinish]
    by_cases h : cur = []
    · subst h; simp [chunks_nil]
    · have hl : cur.length ≠ 0 := fun e => h (List.length_eq_zero.mp e)
      rw [if_pos hl, chunks_short 15 cur h (by omega)]
      rfl
  | cons w ws ih =>
    intro bp cur hc
    rw [List.foldl_cons]
    by_cases h : cur.length = 14
    · have hs : bulletStep (bp, cur) w = (bp ++ [join " ".toList (cur ++ [w])], []) := by
        simp [bulletStep, h]
      rw [hs, ih _ [] (by simp)]
      have hne : cur ++ w :: ws ≠ [] := by simp
      rw [chunks_of_ne 15 _ hne (by omega)]
      have e1 : (cur ++ w :: ws).take 15 = cur ++ [w] := by
        have : cur ++ w :: ws = (cur ++ [w]) ++ ws := by simp
        rw [this, List.take_left' (by simp [h])]
      have e2 : (cur ++ w :: ws).drop 15 = ws := by
        have : cur ++ w :: ws = (cur ++ [w]) ++ ws := by simp
        rw [this, List.drop_left' (by simp [h])]
      rw [e1, e2]
      simp
    · have hs : bulletStep (bp, cur) w = (bp, cur ++ [w]) := by
        have : ¬ (15 ≤ cur.length + 1) := by omega
        simp [bulletStep, this]
      rw [hs, ih bp (cur ++ [w]) (by simp; omega)]
      simp

/-- The bullets are the groups of 15 words, each joined with single spaces. -/
theorem bulletPoints_eq_chunks (ws : List JSString) :
    bulletPoints ws = (chunks 15 ws).map (join " ".toList) := by
  have := bulletLoop_eq_chunks ws [] [] (by simp)
  simpa [bulletPoints] using this

theorem chunks_ne_nil {α : Type} (n : Nat) (hn : 0 < n) (xs : List α) (hx : xs ≠ []) :
    chunks n xs ≠ [] := by
  rw [chunks_of_ne n xs hx hn]; simp

theorem fallbackBullets_ne_nil (t : JSString) : fallbackBullets t ≠ [] := by
  unfold fallbackBullets
  rw [bulletPoints_eq_chunks]
  intro h
  exact chunks_ne_nil 15 (by omega) _ (split_ne_nil _ _) (List.map_eq_nil_iff.mp h)

theorem join_ne_nil (sep w : JSString) (ws : List JSString) (hw : w ≠ []) :
    join sep (w :: ws) ≠ [] := by
  cases ws with
  | nil => simpa [join] using hw
  | cons v vs => simp [join, hw]

/-- C3. `fallbackSummary` returns the error result `No content found in captions`
(and no summary) exactly when the text is empty after trimming; for every other
text it returns a non-empty summary with type `fallback`, the advisory note and
no error. -/
theorem fallbackSummary_error_iff (t : JSString) :
    ((fallbackSummary t).error.isSome ↔ trim t = []) ∧
    (trim t = [] →
      fallbackSummary t = Json.ofError "No content found in captions".toList ∧
      (fallbackSummary t).summary = none) ∧
    (trim t ≠ [] →
      (fallbackSummary t).error = none ∧
      (∃ s, (fallbackSummary t).summary = some s ∧ s ≠ []) ∧
      (fallbackSummary t).type = some "fallback".toList ∧
      (fallbackSummary t).note = some "📝 Simple summary (no AI used).".toList) := by
  by_cases h : trim t = []
  · have e : fallbackSummary t = Json.ofError "No content found in captions".toList := by
      simp [fallbackSummary, h]
    refine ⟨?_, fun _ => ⟨e, by rw [e]; rfl⟩, fun h2 => absurd h h2⟩
    rw [e]; simp [h, Json.ofError]
  · have e : fallbackSummary t = ⟨none,
        some (join "\n".toList ((fallbackBullets t).map (fun pt => "• ".toList ++ pt))),
        some "fallback".toList, some "📝 Simple summary (no AI used).".toList, none⟩ := by
      simp [fallbackSummary, h]
    refine ⟨?_, fun h2 => absurd h2 h, fun _ => ?_⟩
    · rw [e]; simp [h]
    · rw [e]
      refine ⟨rfl, ⟨_, rfl, ?_⟩, rfl, rfl⟩
      obtain ⟨b, bs, hb⟩ := List.exists_cons_of_ne_nil (fallbackBullets_ne_nil t)
      rw [hb, List.map_cons]
      exact join_ne_nil _ _ _ (by simp)

/-- C3, at a blank text and at a two-sentence text. -/
theorem fallbackSummary_error_iff_witness :
    (fallbackSummary " \n ".toList = Json.ofError "No content found in captions".toList ∧
      (fallbackSummary " \n ".toList).summary = none) ∧
    ((fallbackSummary "Hello world. This is it.".toList).error = none ∧
      (∃ s, (fallbackSummary "Hello world. This is it.".toList).summary = some s ∧ s ≠ []) ∧
      (fallbackSummary "Hello world. This is it.".toList).type = some "fallback".toList ∧
      (fallbackSummary "Hello world. This is it.".toList).note =
        some "📝 Simple summary (no AI used).".toList) :=
  ⟨(fallbackSummary_error_iff " \n ".toList).2.1 (by decide),
   (fallbackSummary_error_iff "Hello world. This is it.".toList).2.2 (by decide)⟩

theorem mem_of_mem_chunks {α : Type} (n : Nat) (hn : 0 < n) (xs g : List α)
    (hg : g ∈ chunks n xs) : ∀ x ∈ g, x ∈ xs := by
  intro x hx
  have : x ∈ (chunks n xs).flatten := List.mem_flatten.mpr ⟨g, hg, hx⟩
  rwa [chunks_flatten n hn] at this

theorem wordsOf_of_word (w : JSString) (hne : w ≠ []) (hw : ∀ c ∈ w, isSpaceChar c = false) :
    wordsOf w = [w] := by
  induction w with
  | nil => exact absurd rfl hne
  | cons a w ih =>
    have ha : isSpaceChar a = false := hw a (List.mem_cons_self _ _)
    cases w with
    | nil => simp [wordsOf, wordEnds, ha]
    | cons b w =>
      have hb : isSpaceChar b = false := hw b (by simp)
      have := ih (by simp) (fun c hc => hw c (List.mem_cons_of_mem _ hc))
      rw [wordsOf, this]
      simp [wordEnds, ha, hb]

theorem wordsOf_word_space (w r : JSString) (c : Char) (hne : w ≠ [])
    (hw : ∀ c ∈ w, isSpaceChar c = false) (hc : isSpaceChar c = true) :
    wordsOf (w ++ c :: r) = w :: wordsOf r := by
  induction w with
  | nil => exact absurd rfl hne
  | cons a w ih =>
    have ha : isSpaceChar a = false := hw a (List.mem_cons_self _ _)
    cases w with
    | nil =>
      show wordsOf (a :: c :: r) = _
      have hr : wordsOf (c :: r) = wordsOf r := by rw [wordsOf]; simp [hc]
      rw [wordsOf, hr]
      simp [wordEnds, ha, hc]
    | cons b w =>
      have hb : isSpaceChar b = false := hw b (by simp)
      have := ih (by simp) (fun c hc => hw c (List.mem_cons_of_mem _ hc))
      show wordsOf (a :: (b :: w ++ c :: r)) = _
      rw [wordsOf, this]
      simp [wordEnds, ha, hb]

/-- The words of single-space-joined words are these words. -/
theorem wordsOf_join (ws : List JSString)
    (h : ∀ w ∈ ws, w ≠ [] ∧ ∀ c ∈ w, isSpaceChar c = false) :
    wordsOf (join " ".toList ws) = ws := by
  induction ws with
  | nil => rfl
  | cons w ws ih =>
    obtain ⟨h1, h2⟩ := h w (List.mem_cons_self _ _)
    by_cases hws : ws = []
    · subst hws; simpa [join] using wordsOf_of_word w h1 h2
    · rw [join_cons_of_ne _ _ _ hws]
      show wordsOf (w ++ [' '] ++ join " ".toList ws) = _
      rw [List.append_assoc, List.singleton_append,
        wordsOf_word_space w _ ' ' h1 h2 (by decide),
        ih (fun v hv => h v (List.mem_cons_of_mem _ hv))]

/-- Every bullet but the last is the single-space join of 15 tokens of the
joined text, none of which contains a space. -/
theorem fallbackBullets_dropLast (t b : JSString) (hb : b ∈ (fallbackBullets t).dropLast) :
    ∃ g : List JSString, b = join " ".toList g ∧ g.length = 15 ∧
      (∀ w ∈ g, w ∈ split ' ' (basicSummary (trim t))) ∧ split ' ' b = g := by
  unfold fallbackBullets at hb
  rw [bulletPoints_eq_chunks, ← List.map_dropLast] at hb
  obtain ⟨g, hg, rfl⟩ := List.mem_map.mp hb
  have hlen := (chunks_sizes 15 (by omega) _).1 g hg
  have hmem := mem_of_mem_chunks 15 (by omega) _ g (List.mem_of_mem_dropLast hg)
  refine ⟨g, rfl, hlen, hmem, ?_⟩
  apply split_join ' ' g
  · intro e; rw [e] at hlen; simp at hlen
  · intro w hw
    exact not_mem_of_mem_split ' ' _ w (hmem w hw)

/-- C4, as the code has it. Every bullet except possibly the last consists of
exactly 15 tokens of the single-space split (a token may be empty or contain
other whitespace); such a bullet has exactly 15 words when each of its tokens
is a word, that is non-empty and free of whitespace. -/
theorem fallbackBullets_fifteen_tokens (t : JSString) :
    ∀ b ∈ (fallbackBullets t).dropLast,
      (split ' ' b).length = 15 ∧
      ((∀ w ∈ split ' ' b, w ≠ [] ∧ ∀ c ∈ w, isSpaceChar c = false) →
        (wordsOf b).length = 15) := by
  intro b hb
  obtain ⟨g, hbg, hlen, -, hsplit⟩ := fallbackBullets_dropLast t b hb
  refine ⟨by rw [hsplit, hlen], fun hw => ?_⟩
  rw [hsplit] at hw
  rw [hbg, wordsOf_join g hw, hlen]

/-- C4 as amended, at a 16-word text without a period inside. -/
theorem fallbackBullets_fifteen_tokens_witness :
    (split ' ' "a b c d e f g h i j k l m n o".toList).length = 15 ∧
    (wordsOf "a b c d e f g h i j k l m n o".toList).length = 15 :=
  have h := fallbackBullets_fifteen_tokens "a b c d e f g h i j k l m n o p".toList
    "a b c d e f g h i j k l m n o".toList (by decide)
  ⟨h.1, h.2 (by decide)⟩

/-- C4 as stated fails: in the summary of `a. b. c d e f g h i j k l m n o p q`
the first of the two bullets holds 13 words (14 runs with its marker), because
two of its 15 tokens are empty. -/
theorem fallbackBullets_words_counterexample :
    trim "a. b. c d e f g h i j k l m n o p q".toList ≠ [] ∧
    fallbackBullets "a. b. c d e f g h i j k l m n o p q".toList =
      ["a.  b.  c d e f g h i j k l m".toList, "n o p q.".toList] ∧
    (wordsOf "a.  b.  c d e f g h i j k l m".toList).length = 13 ∧
    (wordsOf "• a.  b.  c d e f g h i j k l m".toList).length = 14 ∧
    ¬ (∀ t : JSString, trim t ≠ [] →
        ∀ b ∈ (fallbackBullets t).dropLast, (wordsOf b).length = 15) := by
  refine ⟨by decide, by decide, by decide, by decide, fun h => ?_⟩
  have := h "a. b. c d e f g h i j k l m n o p q".toList (by decide)
    "a.  b.  c d e f g h i j k l m".toList (by decide)
  revert this
  decide

/-- Joining the joined groups gives the join of all the words. -/
theorem join_chunks (sep : JSString) (n : Nat) (hn : 0 < n) (xs : List JSString) :
    join sep ((chunks n xs).map (join sep)) = join sep xs := by
  generalize h : xs.length = m
  induction m using Nat.strong_induction_on generalizing xs with
  | _ m ih =>
    by_cases hx : xs = []
    · subst hx; simp [chunks_nil]
    · have h1 : 0 < xs.length := List.length_pos.mpr hx
      rw [chunks_of_ne n xs hx hn, List.map_cons]
      by_cases hr : xs.drop n = []
      · have hle : xs.length ≤ n := by simpa using hr
        rw [hr, chunks_nil, List.take_of_length_le hle]
        rfl
      · have hne : (chunks n (xs.drop n)).map (join sep) ≠ [] := by
          intro e
          exact chunks_ne_nil n hn _ hr (List.map_eq_nil_iff.mp e)
        have ht : xs.take n ≠ [] := by
          intro e
          rcases List.take_eq_nil_iff.mp e with h0 | h0
          · omega
          · exact hx h0
        have hd : (xs.drop n).length < m := by
          rw [List.length_drop]; omega
        rw [join_cons_of_ne _ _ _ hne, ih (xs.drop n).length hd (xs.drop n) rfl,
          ← join_append _ _ _ ht hr, List.take_append_drop]

theorem ne_nil_of_mem_chunks {α : Type} (n : Nat) (hn : 0 < n) (xs : List α) :
    ∀ g ∈ chunks n xs, g ≠ [] := by
  generalize h : xs.length = m
  induction m using Nat.strong_induction_on generalizing xs with
  | _ m ih =>
    by_cases hx : xs = []
    · subst hx; simp [chunks_nil]
    · have h1 : 0 < xs.length := List.length_pos.mpr hx
      have hd : (xs.drop n).length < m := by
        rw [List.length_drop]; omega
      rw [chunks_of_ne n xs hx hn]
      intro g hg
      rcases List.mem_cons.mp hg with rfl | hg
      · intro e
        rcases List.take_eq_nil_iff.mp e with h0 | h0
        · omega
        · exact hx h0
      · exact ih _ hd (xs.drop n) rfl g hg

theorem split_append (sep : Char) (a b : JSString) :
    split sep (a ++ sep :: b) = split sep a ++ split sep b := by
  induction a with
  | nil => simp [split]
  | cons c cs ih =>
    show split sep (c :: (cs ++ sep :: b)) = _
    by_cases hc : c = sep
    · simp [split, hc, ih]
    · obtain ⟨w, ws, hw⟩ := List.exists_cons_of_ne_nil (split_ne_nil sep cs)
      simp [split, hc, ih, hw]

theorem length_split (sep : Char) (s : JSString) : (split sep s).length = s.count sep + 1 := by
  induction s with
  | nil => rfl
  | cons c cs ih =>
    by_cases hc : c = sep
    · simp [split, hc, ih]
    · obtain ⟨w, ws, hw⟩ := List.exists_cons_of_ne_nil (split_ne_nil sep cs)
      rw [hw] at ih
      simp [split, hc, hw, List.count_cons] at ih ⊢
      exact ih

theorem trimStart_append (p r : JSString) (c : Char) (hc : isSpaceChar c = false) :
    trimStart (p ++ c :: r) = trimStart p ++ c :: r := by
  unfold trimStart
  induction p with
  | nil => simp [List.dropWhile, hc]
  | cons a p ih =>
    by_cases ha : isSpaceChar a = true
    · simp [List.dropWhile, ha, ih]
    · simp [List.dropWhile, ha]

theorem trimEnd_append (q r : JSString) (c : Char) (hc : isSpaceChar c = false) :
    trimEnd (q ++ c :: r) = q ++ c :: trimEnd r := by
  have h := trimStart_append r.reverse q.reverse c hc
  unfold trimStart at h
  unfold trimEnd
  have e : (q ++ c :: r).reverse = r.reverse ++ c :: q.reverse := by simp
  rw [e, h]
  simp

/-- Trimming around a non-whitespace character: only what is before it loses
leading whitespace and only what is after it loses trailing whitespace. -/
theorem trim_append (p r : JSString) (c : Char) (hc : isSpaceChar c = false) :
    trim (p ++ c :: r) = trimStart p ++ c :: trimEnd r := by
  unfold trim
  rw [trimStart_append p r c hc, trimEnd_append _ r c hc]

theorem count_trimStart (p : JSString) (c : Char) (hc : isSpaceChar c = false) :
    (trimStart p).count c = p.count c := by
  unfold trimStart
  induction p with
  | nil => rfl
  | cons a p ih =>
    by_cases ha : isSpaceChar a = true
    · have hne : a ≠ c := by
        intro e; rw [e, hc] at ha; cases ha
      simp [List.dropWhile, ha, ih, List.count_cons, hne]
    · simp [List.dropWhile, ha]

/-- When the trimmed text has a tenth period, the joined text is fixed by what
stands before that period. -/
theorem basicSummary_tenth_period (p r : JSString) (hp : p.count '.' = 9) :
    basicSummary (trim (p ++ '.' :: r)) =
      join ". ".toList (split '.' (trimStart p)) ++ ".".toList := by
  unfold basicSummary
  rw [trim_append p r '.' (by decide), split_append]
  have hl : (split '.' (trimStart p)).length = 10 := by
    rw [length_split, count_trimStart p '.' (by decide), hp]
  rw [List.take_left' hl]

theorem trim_append_ne_nil (p r : JSString) (c : Char) (hc : isSpaceChar c = false) :
    trim (p ++ c :: r) ≠ [] := by
  rw [trim_append p r c hc]; simp

/-- C5. For a text that is non-empty after trimming, the summary is made of the
bullets; the bullet texts joined with single spaces are the first ten
`.`-delimited pieces of the trimmed text joined with `. ` and followed by `.`;
the tokens of the bullets, in order, are the tokens of that text; and what
follows the tenth period does not change the result. -/
theorem fallbackSummary_text_preserved (t : JSString) (h : trim t ≠ []) :
    (fallbackSummary t).summary =
      some (join "\n".toList ((fallbackBullets t).map (fun pt => "• ".toList ++ pt))) ∧
    join " ".toList (fallbackBullets t) =
      join ". ".toList ((split '.' (trim t)).take 10) ++ ".".toList ∧
    ((fallbackBullets t).map (split ' ')).flatten =
      split ' ' (join ". ".toList ((split '.' (trim t)).take 10) ++ ".".toList) ∧
    (∀ p r r1 : JSString, t = p ++ '.' :: r → p.count '.' = 9 →
      fallbackSummary (p ++ '.' :: r1) = fallbackSummary t) := by
  refine ⟨by simp [fallbackSummary, h], ?_, ?_, ?_⟩
  · unfold fallbackBullets
    rw [bulletPoints_eq_chunks, join_chunks _ 15 (by omega)]
    exact join_split ' ' _
  · unfold fallbackBullets
    rw [bulletPoints_eq_chunks, List.map_map]
    have hg : ∀ g ∈ chunks 15 (split ' ' (basicSummary (trim t))),
        (split ' ' ∘ join " ".toList) g = g := by
      intro g hg
      have hmem := mem_of_mem_chunks 15 (by omega) _ g hg
      apply split_join ' ' g
      · exact ne_nil_of_mem_chunks 15 (by omega) _ g hg
      · intro w hw
        exact not_mem_of_mem_split ' ' _ w (hmem w hw)
    rw [List.map_congr_left hg, List.map_id', chunks_flatten 15 (by omega)]
    rfl
  · intro p r r1 ht hp
    have e1 : fallbackBullets (p ++ '.' :: r1) = fallbackBullets t := by
      unfold fallbackBullets
      rw [ht, basicSummary_tenth_period p r hp, basicSummary_tenth_period p r1 hp]
    have n1 := trim_append_ne_nil p r1 '.' (by decide)
    simp only [fallbackSummary, if_neg n1, if_neg h, e1]

/-- C5, at a text of eleven sentences: the bullets joined give the first ten,
and replacing what follows the tenth period leaves the result as it is. -/
theorem fallbackSummary_text_preserved_witness :
    join " ".toList (fallbackBullets "a.b.c.d.e.f.g.h.i.j.k".toList) =
      join ". ".toList ((split '.' (trim "a.b.c.d.e.f.g.h.i.j.k".toList)).take 10) ++ ".".toList ∧
    fallbackSummary ("a.b.c.d.e.f.g.h.i.j".toList ++ '.' :: "other text. more".toList) =
      fallbackSummary "a.b.c.d.e.f.g.h.i.j.k".toList :=
  have h := fallbackSummary_text_preserved "a.b.c.d.e.f.g.h.i.j.k".toList (by decide)
  ⟨h.2.1, h.2.2.2 "a.b.c.d.e.f.g.h.i.j".toList "k".toList "other text. more".toList
    (by decide) (by decide)⟩

/-! ## The summarize handler -/

/-- What `extractVideoId` returns for a non-empty input is non-empty. -/
theorem extractVideoId_ne_nil (url : JSString) (hu : url ≠ []) : extractVideoId url ≠ [] := by
  unfold extractVideoId
  cases hm : urlMatch url with
  | none => exact hu
  | some x =>
    obtain ⟨t, -, ht⟩ := urlMatch_some url x hm
    obtain ⟨-, u, v, -, -, hl, -⟩ := matchAt_some t x ht
    intro e
    have e : x = [] := by simpa using e
    rw [e] at hl
    simp at hl

/-- A `POST` request with a usable `url` whose transcript is fetched reaches the
choice of the mode. -/
theorem handler_post (w : World) (url : JSString) (st : Option JSString)
    (lines : List JSString) (hu : url ≠ [])
    (ht : w.getTranscript (extractVideoId url) = Except.ok lines) :
    handler w (postRequest url st) =
      if st.getD "fast".toList = "simple".toList then
        (⟨200, fallbackSummary (join " ".toList lines)⟩, [Call.transcript (extractVideoId url)])
      else if st.getD "fast".toList = "fast".toList then
        match geminiSummarize w 0 (first500 (join " ".toList lines)) "fast".toList with
        | (Except.error msg, cs) =>
          (⟨500, Json.ofError (errMessage msg "Failed to summarize".toList)⟩,
            Call.transcript (extractVideoId url) :: cs)
        | (Except.ok result, cs) => (⟨200, result⟩, Call.transcript (extractVideoId url) :: cs)
      else
        match summarizeChunks w (transcriptChunks (join " ".toList lines)) [] [] with
        | (Except.error msg, cs) =>
          (⟨500, Json.ofError (errMessage msg "Failed to summarize".toList)⟩,
            Call.transcript (extractVideoId url) :: cs)
        | (Except.ok allSummaries, cs) =>
          (⟨200, Json.ofSummary (join "\n".toList allSummaries)⟩,
            Call.transcript (extractVideoId url) :: cs) := by
  have h1 : url.isEmpty = false := by
    cases url with
    | nil => exact absurd rfl hu
    | cons c cs => rfl
  have h2 : (extractVideoId url).isEmpty = false := by
    have := extractVideoId_ne_nil url hu
    cases h : extractVideoId url with
    | nil => exact absurd h this
    | cons c cs => rfl
  simp only [handler, postRequest, Option.getD_some, h1, h2, ht]
  simp

theorem join_take_isPrefix (sep : JSString) (k : Nat) (ws : List JSString) :
    join sep (ws.take k) <+: join sep ws := by
  by_cases h1 : ws.take k = []
  · rw [h1]; exact List.nil_prefix
  by_cases h2 : ws.drop k = []
  · have : ws.take k = ws := by
      have := List.take_append_drop k ws
      rw [h2, List.append_nil] at this
      exact this
    rw [this]
  · have e : join sep ws = join sep (ws.take k) ++ sep ++ join sep (ws.drop k) := by
      rw [← join_append _ _ _ h1 h2, List.take_append_drop]
    rw [e, List.append_assoc]
    exact List.prefix_append _ _

theorem first500_eq (text : JSString) :
    first500 text = join " ".toList ((split ' ' text).take 500) := by
  simp [first500, slice]

/-- The tokens of the fast-mode text are the first 500 tokens of the transcript. -/
theorem split_first500 (text : JSString) :
    split ' ' (first500 text) = (split ' ' text).take 500 := by
  rw [first500_eq]
  apply split_join ' '
  · intro e
    rcases List.take_eq_nil_iff.mp e with h | h
    · omega
    · exact split_ne_nil _ _ h
  · intro w hw
    exact not_mem_of_mem_split ' ' text w (List.mem_of_mem_take hw)

/-- Fast mode issues its generation request, if any, for `first500`. -/
theorem geminiSummarize_calls (w : World) (n : Nat) (text type : JSString) :
    (geminiSummarize w n text type).2 =
      if w.hasKey then [Call.generate (geminiUrl w) (geminiPrompt text type)] else [] := by
  unfold geminiSummarize
  cases hk : w.hasKey
  · simp
  · cases hf : w.fetch n (geminiPrompt text type) <;> simp [hf]

/-- C6. In fast mode (`summary_type` absent or `fast`) the handler fetches the
transcript and issues at most one generation request, exactly one when a key is
configured; the transcript text in its prompt is the first `min N 500` words of
the single-space split joined by single spaces: it has at most 500 words, is a
prefix of the transcript text, and is the whole text when `N ≤ 500`. -/
theorem handler_fast_first500 (w : World) (url : JSString) (st : Option JSString)
    (lines : List JSString) (hu : url ≠ [])
    (ht : w.getTranscript (extractVideoId url) = Except.ok lines)
    (hst : st = none ∨ st = some "fast".toList) :
    (handler w (postRequest url st)).2 =
      Call.transcript (extractVideoId url) ::
        (if w.hasKey then
          [Call.generate (geminiUrl w)
            ("Summarize the following YouTube transcript in concise bullet points. Use LaTeX for any math. Limit to 8 points.\n\nTranscript:\n".toList
              ++ first500 (join " ".toList lines))]
        else []) ∧
    first500 (join " ".toList lines) =
      join " ".toList ((split ' ' (join " ".toList lines)).take
        (min (split ' ' (join " ".toList lines)).length 500)) ∧
    (split ' ' (first500 (join " ".toList lines))).length =
      min (split ' ' (join " ".toList lines)).length 500 ∧
    (split ' ' (first500 (join " ".toList lines))).length ≤ 500 ∧
    first500 (join " ".toList lines) <+: join " ".toList lines ∧
    ((split ' ' (join " ".toList lines)).length ≤ 500 →
      first500 (join " ".toList lines) = join " ".toList lines) := by
  have hty : st.getD "fast".toList = "fast".toList := by
    rcases hst with rfl | rfl <;> rfl
  have hlen : (split ' ' (first500 (join " ".toList lines))).length =
      min (split ' ' (join " ".toList lines)).length 500 := by
    rw [split_first500, List.length_take, Nat.min_comm]
  refine ⟨?_, ?_, hlen, ?_, ?_, ?_⟩
  · rw [handler_post w url st lines hu ht, hty]
    rw [if_neg (by decide), if_pos rfl]
    have hc := geminiSummarize_calls w 0 (first500 (join " ".toList lines)) "fast".toList
    have hp : geminiPrompt (first500 (join " ".toList lines)) "fast".toList =
        "Summarize the following YouTube transcript in concise bullet points. Use LaTeX for any math. Limit to 8 points.\n\nTranscript:\n".toList
          ++ first500 (join " ".toList lines) := by
      simp [geminiPrompt]
    rw [hp] at hc
    rcases hg : geminiSummarize w 0 (first500 (join " ".toList lines)) "fast".toList with ⟨r, cs⟩
    rw [hg] at hc
    cases r <;> simp at hc ⊢ <;> exact hc
  · rw [first500_eq]
    congr 1
    by_cases hle : (split ' ' (join " ".toList lines)).length ≤ 500
    · rw [Nat.min_eq_left hle, List.take_of_length_le hle, List.take_of_length_le (Nat.le_refl _)]
    · rw [Nat.min_eq_right (by omega)]
  · rw [hlen]; exact Nat.min_le_right _ _
  · have := join_take_isPrefix " ".toList 500 (split ' ' (join " ".toList lines))
    rw [← first500_eq] at this
    have e : join " ".toList (split ' ' (join " ".toList lines)) = join " ".toList lines :=
      join_split ' ' _
    rwa [e] at this
  · intro hle
    rw [first500_eq, List.take_of_length_le hle]
    exact join_split ' ' _

/-- C6, in the sample world: the three-word transcript is sent whole. -/
theorem handler_fast_first500_witness :
    first500 (join " ".toList ["a b".toList, "c".toList]) <+:
      join " ".toList ["a b".toList, "c".toList] ∧
    first500 (join " ".toList ["a b".toList, "c".toList]) =
      join " ".toList ["a b".toList, "c".toList] :=
  have h := handler_fast_first500 sampleWorld sampleUrl none ["a b".toList, "c".toList]
    (by decide) rfl (Or.inl rfl)
  ⟨h.2.2.2.2.1, h.2.2.2.2.2 (by decide)⟩

/-- The loop that fills `chunks`, with enough fuel, pushes the joined groups of
1000 of the words from index `i` on. -/
theorem chunkLoop_eq_chunks (words : List JSString) :
    ∀ (fuel i : Nat) (acc : List JSString), words.length - i ≤ fuel →
      chunkLoop words fuel i acc =
        acc ++ (chunks 1000 (words.drop i)).map (join " ".toList) := by
  intro fuel
  induction fuel with
  | zero =>
    intro i acc h
    have : words.drop i = [] := List.drop_eq_nil_of_le (by omega)
    simp [chunkLoop, this, chunks_nil]
  | succ fuel ih =>
    intro i acc h
    unfold chunkLoop
    by_cases hi : i < words.length
    · rw [if_pos hi, ih (i + 1000) _ (by omega)]
      have hne : words.drop i ≠ [] := by
        intro e
        have := List.drop_eq_nil_iff.mp e
        omega
      rw [chunks_of_ne 1000 _ hne (by omega), List.drop_drop]
      have e1 : slice words i (i + 1000) = (words.drop i).take 1000 := by
        simp [slice]
      rw [e1]
      simp [Nat.add_comm]
    · rw [if_neg hi]
      have : words.drop i = [] := List.drop_eq_nil_of_le (by omega)
      simp [this, chunks_nil]

/-- The array `chunks` of complete mode: the groups of 1000 words, joined. -/
theorem transcriptChunks_eq (text : JSString) :
    transcriptChunks text = (chunks 1000 (split ' ' text)).map (join " ".toList) := by
  unfold transcriptChunks
  rw [chunkLoop_eq_chunks _ _ 0 [] (by omega)]
  simp

/-- The chunk loop does not depend on the fuel once it is enough: it ends by
its own test. -/
theorem chunkLoop_fuel (words : List JSString) (fuel : Nat) (h : words.length ≤ fuel) :
    chunkLoop words fuel 0 [] = chunkLoop words words.length 0 [] := by
  rw [chunkLoop_eq_chunks _ _ 0 [] (by omega), chunkLoop_eq_chunks _ _ 0 [] (by omega)]

/-- Splitting a joined group of words of a split gives the group back. -/
theorem split_join_of_mem_chunks (n : Nat) (hn : 0 < n) (text : JSString) (g : List JSString)
    (hg : g ∈ chunks n (split ' ' text)) : split ' ' (join " ".toList g) = g := by
  apply split_join ' ' g (ne_nil_of_mem_chunks n hn _ g hg)
  intro w hw
  exact not_mem_of_mem_split ' ' _ w (mem_of_mem_chunks n hn _ g hg w hw)

theorem geminiSummarize_keyless (w : World) (n : Nat) (text ty : JSString)
    (hk : w.hasKey = false) :
    geminiSummarize w n text ty =
      (Except.ok (Json.ofError "No Gemini API key set.".toList), []) := by
  simp [geminiSummarize, hk]

theorem geminiSummarize_notOk (w : World) (n : Nat) (text ty : JSString)
    (hk : w.hasKey = true) (hf : w.fetch n (geminiPrompt text ty) = FetchOutcome.notOk) :
    geminiSummarize w n text ty =
      (Except.ok (Json.ofError "Gemini API error".toList),
        [Call.generate (geminiUrl w) (geminiPrompt text ty)]) := by
  simp [geminiSummarize, hk, hf]

theorem geminiSummarize_ok (w : World) (n : Nat) (text ty : JSString) (t : Option JSString)
    (hk : w.hasKey = true) (hf : w.fetch n (geminiPrompt text ty) = FetchOutcome.ok t) :
    geminiSummarize w n text ty =
      (Except.ok (Json.ofSummary (t.getD [])),
        [Call.generate (geminiUrl w) (geminiPrompt text ty)]) := by
  simp [geminiSummarize, hk, hf]

theorem geminiSummarize_throws (w : World) (n : Nat) (text ty m : JSString)
    (hk : w.hasKey = true) (hf : w.fetch n (geminiPrompt text ty) = FetchOutcome.throws m) :
    geminiSummarize w n text ty =
      (Except.error m, [Call.generate (geminiUrl w) (geminiPrompt text ty)]) := by
  simp [geminiSummarize, hk, hf]

/-- Without a key the chunk loop issues no request and collects nothing. -/
theorem summarizeChunks_keyless (w : World) (hk : w.hasKey = false) (cs : List JSString) :
    ∀ (all : List JSString) (calls : List Call),
      summarizeChunks w cs all calls = (Except.ok all, calls) := by
  induction cs with
  | nil => intro all calls; rfl
  | cons c cs ih =>
    intro all calls
    simp only [summarizeChunks, geminiSummarize_keyless w _ _ _ hk, Json.ofError,
      List.append_nil, ih]

theorem chunkSummary_keyless (w : World) (hk : w.hasKey = false) (n : Nat) (c : JSString) :
    chunkSummary w n c = none := by
  simp only [chunkSummary, geminiSummarize_keyless w _ _ _ hk, Json.ofError, Option.filter]

/-- With a service that never throws, the chunk loop issues one request per
chunk when there is a key, in order, and collects the non-empty summaries. -/
theorem summarizeChunks_spec (w : World)
    (hno : ∀ n p m, w.fetch n p ≠ FetchOutcome.throws m) (cs : List JSString) :
    ∀ (all : List JSString) (calls : List Call),
      summarizeChunks w cs all calls =
        (Except.ok (all ++ (cs.enumFrom calls.length).filterMap
            (fun ic => chunkSummary w ic.1 ic.2)),
          calls ++ (if w.hasKey then
            cs.map (fun c => Call.generate (geminiUrl w) (geminiPrompt c "complete".toList))
            else [])) := by
  cases hk : w.hasKey
  · intro all calls
    rw [summarizeChunks_keyless w hk]
    simp [chunkSummary_keyless w hk]
  induction cs with
  | nil => intro all calls; simp [summarizeChunks]
  | cons c cs ih =>
    intro all calls
    have hlen : (calls ++ [Call.generate (geminiUrl w) (geminiPrompt c "complete".toList)]).length
        = calls.length + 1 := by simp
    cases hf : w.fetch calls.length (geminiPrompt c "complete".toList) with
    | throws m => exact absurd hf (hno _ _ m)
    | notOk =>
      have hg := geminiSummarize_notOk w _ _ _ hk hf
      have hs : chunkSummary w calls.length c = none := by
        simp only [chunkSummary, hg, Json.ofError, Option.filter]
      simp only [summarizeChunks, hg, Json.ofError, List.enumFrom_cons, List.filterMap_cons, hs,
        ih, hlen]
      simp
    | ok t =>
      have hg := geminiSummarize_ok w _ _ _ t hk hf
      by_cases he : (t.getD []).isEmpty = true
      · have hs : chunkSummary w calls.length c = none := by
          simp only [chunkSummary, hg, Json.ofSummary, Option.filter, he]
          rfl
        simp only [summarizeChunks, hg, Json.ofSummary, List.enumFrom_cons,
          List.filterMap_cons, hs, he, ih, hlen]
        simp
      · have hs : chunkSummary w calls.length c = some (t.getD []) := by
          simp only [chunkSummary, hg, Json.ofSummary, Option.filter, he]
          rfl
        simp only [summarizeChunks, hg, Json.ofSummary, List.enumFrom_cons,
          List.filterMap_cons, hs, he, ih, hlen]
        simp

/-- The sizes and the order of the chunks of complete mode. -/
theorem transcriptChunks_sizes (text : JSString) :
    (transcriptChunks text).length = ((split ' ' text).length + 999) / 1000 ∧
    ((transcriptChunks text).map (split ' ')).flatten = split ' ' text ∧
    (∀ c ∈ (transcriptChunks text).dropLast, (split ' ' c).length = 1000) ∧
    (∀ c ∈ (transcriptChunks text).getLast?,
      1 ≤ (split ' ' c).length ∧ (split ' ' c).length ≤ 1000) := by
  have hsz := chunks_sizes 1000 (by omega) (split ' ' text)
  rw [transcriptChunks_eq]
  refine ⟨?_, ?_, ?_, ?_⟩
  · rw [List.length_map, chunks_length 1000 (by omega)]
    rfl
  · rw [List.map_map]
    have hg : ∀ g ∈ chunks 1000 (split ' ' text), (split ' ' ∘ join " ".toList) g = g :=
      fun g hg => split_join_of_mem_chunks 1000 (by omega) text g hg
    rw [List.map_congr_left hg, List.map_id', chunks_flatten 1000 (by omega)]
  · intro c hc
    rw [← List.map_dropLast] at hc
    obtain ⟨g, hg, rfl⟩ := List.mem_map.mp hc
    rw [split_join_of_mem_chunks 1000 (by omega) text g (List.mem_of_mem_dropLast hg)]
    exact hsz.1 g hg
  · intro c hc
    rw [List.getLast?_map] at hc
    obtain ⟨g, hg, rfl⟩ := Option.mem_map.mp hc
    have hmem : g ∈ chunks 1000 (split ' ' text) := by
      obtain ⟨hne, e⟩ := List.mem_getLast?_eq_getLast hg
      rw [e]; exact List.getLast_mem hne
    rw [split_join_of_mem_chunks 1000 (by omega) text g hmem]
    exact hsz.2 g hg

/-- C7, as the code has it. In complete mode (any `summary_type` other than
`simple` and `fast`) a transcript of `N` single-space-separated words is cut
into `ceil(N/1000)` chunks in transcript order, each but the last of exactly
1000 words and the last of 1 to 1000; when a key is configured and no
generation call throws, exactly one generation request is issued per chunk, in
chunk order. -/
theorem handler_complete_chunks (w : World) (url : JSString) (st : Option JSString)
    (lines : List JSString) (hu : url ≠ [])
    (ht : w.getTranscript (extractVideoId url) = Except.ok lines)
    (hs1 : st.getD "fast".toList ≠ "simple".toList)
    (hs2 : st.getD "fast".toList ≠ "fast".toList) :
    (transcriptChunks (join " ".toList lines)).length =
      ((split ' ' (join " ".toList lines)).length + 999) / 1000 ∧
    ((transcriptChunks (join " ".toList lines)).map (split ' ')).flatten =
      split ' ' (join " ".toList lines) ∧
    (∀ c ∈ (transcriptChunks (join " ".toList lines)).dropLast, (split ' ' c).length = 1000) ∧
    (∀ c ∈ (transcriptChunks (join " ".toList lines)).getLast?,
      1 ≤ (split ' ' c).length ∧ (split ' ' c).length ≤ 1000) ∧
    (w.hasKey = true → (∀ n p m, w.fetch n p ≠ FetchOutcome.throws m) →
      (handler w (postRequest url st)).2 =
        Call.transcript (extractVideoId url) ::
          (transcriptChunks (join " ".toList lines)).map
            (fun c => Call.generate (geminiUrl w) (geminiPrompt c "complete".toList))) := by
  obtain ⟨h1, h2, h3, h4⟩ := transcriptChunks_sizes (join " ".toList lines)
  refine ⟨h1, h2, h3, h4, fun hk hno => ?_⟩
  rw [handler_post w url st lines hu ht, if_neg hs1, if_neg hs2,
    summarizeChunks_spec w hno, hk]
  simp

/-- C7 as amended, in the sample world: one chunk of three words, one request. -/
theorem handler_complete_chunks_witness :
    (transcriptChunks (join " ".toList ["a b".toList, "c".toList])).length =
      ((split ' ' (join " ".toList ["a b".toList, "c".toList])).length + 999) / 1000 ∧
    (handler sampleWorld (postRequest sampleUrl (some "complete".toList))).2 =
      Call.transcript (extractVideoId sampleUrl) ::
        (transcriptChunks (join " ".toList ["a b".toList, "c".toList])).map
          (fun c => Call.generate (geminiUrl sampleWorld) (geminiPrompt c "complete".toList)) :=
  have h := handler_complete_chunks sampleWorld sampleUrl (some "complete".toList)
    ["a b".toList, "c".toList] (by decide) rfl (by decide) (by decide)
  ⟨h.1, h.2.2.2.2 rfl (fun _ _ _ e => by cases e)⟩

/-- C7 as stated fails: without a key, complete mode builds one chunk for the
three-word transcript and issues no generation request; its only call is the
transcript fetch. -/
theorem handler_complete_requests_counterexample :
    (transcriptChunks (join " ".toList ["a b".toList, "c".toList])).length = 1 ∧
    (handler keylessWorld (postRequest sampleUrl (some "complete".toList))).2 =
      [Call.transcript "dQw4w9WgXcQ".toList] := by
  decide

/-- C8, as the code has it. In complete mode, when no generation call throws,
whatever each call returns (no key, a non-success response, a response with or
without text), the response is status 200 and its summary is the newline-join,
in chunk order, of the non-empty summaries returned; a chunk whose call returns
an error result contributes nothing and the other chunks contribute what their
own calls returned. -/
theorem handler_complete_summary (w : World) (url : JSString) (st : Option JSString)
    (lines : List JSString) (hu : url ≠ [])
    (ht : w.getTranscript (extractVideoId url) = Except.ok lines)
    (hs1 : st.getD "fast".toList ≠ "simple".toList)
    (hs2 : st.getD "fast".toList ≠ "fast".toList)
    (hno : ∀ n p m, w.fetch n p ≠ FetchOutcome.throws m) :
    (handler w (postRequest url st)).1 =
      ⟨200, Json.ofSummary (join "\n".toList
        (((transcriptChunks (join " ".toList lines)).enumFrom 0).filterMap
          (fun ic => chunkSummary w ic.1 ic.2)))⟩ ∧
    (∀ n c e, (geminiSummarize w n c "complete".toList).1 = Except.ok (Json.ofError e) →
      chunkSummary w n c = none) ∧
    (∀ n c s, (geminiSummarize w n c "complete".toList).1 = Except.ok (Json.ofSummary s) →
      chunkSummary w n c = if s.isEmpty then none else some s) := by
  refine ⟨?_, ?_, ?_⟩
  · rw [handler_post w url st lines hu ht, if_neg hs1, if_neg hs2,
      summarizeChunks_spec w hno]
    simp
  · intro n c e h
    simp only [chunkSummary, h, Json.ofError, Option.filter]
  · intro n c s h
    simp only [chunkSummary, h, Json.ofSummary, Option.filter]
    by_cases he : s.isEmpty = true
    · simp [he]
    · simp [he]

/-- C8 as amended, in the sample world and in the world whose service always
answers with a non-success status. -/
theorem handler_complete_summary_witness :
    (handler sampleWorld (postRequest sampleUrl (some "complete".toList))).1 =
      ⟨200, Json.ofSummary "S".toList⟩ ∧
    (handler failingWorld (postRequest sampleUrl (some "complete".toList))).1 =
      ⟨200, Json.ofSummary []⟩ :=
  ⟨((handler_complete_summary sampleWorld sampleUrl (some "complete".toList)
      ["a b".toList, "c".toList] (by decide) rfl (by decide) (by decide)
      (fun _ _ _ e => by cases e)).1).trans (by decide),
   ((handler_complete_summary failingWorld sampleUrl (some "complete".toList)
      ["a b".toList, "c".toList] (by decide) rfl (by decide) (by decide)
      (fun _ _ _ e => by cases e)).1).trans (by decide)⟩

/-- C8 as stated fails: when the generation call of a chunk throws (here `fetch`
rejects with `socket hang up`), the handler's `catch` answers with status 500
and the error message instead of status 200 with a summary, and the loop over
the chunks ends with that call. -/
theorem handler_complete_summary_counterexample :
    handler throwingWorld (postRequest sampleUrl (some "complete".toList)) =
      (⟨500, Json.ofError "socket hang up".toList⟩,
        [Call.transcript "dQw4w9WgXcQ".toList,
          Call.generate (geminiUrl throwingWorld)
            (geminiPrompt "a b c".toList "complete".toList)]) ∧
    (handler throwingWorld (postRequest sampleUrl (some "complete".toList))).1.status ≠ 200 ∧
    (handler throwingWorld (postRequest sampleUrl (some "complete".toList))).1.json.summary =
      none := by
  decide

/-- The statuses of the summarize handler, and the error field of every
response whose status is not 200. -/
theorem handler_status_cases (w : World) (req : Request) :
    ((handler w req).1.status = 200 ∨ (handler w req).1.status = 400 ∨
      (handler w req).1.status = 405 ∨ (handler w req).1.status = 500) ∧
    ((handler w req).1.status ≠ 200 →
      (handler w req).1.json.error.isSome = true ∧ (handler w req).1.json.summary = none) := by
  unfold handler
  split
  · simp [Json.ofError]
  · dsimp only
    split
    · simp [Json.ofError]
    · split
      · simp [Json.ofError]
      · split
        · simp [Json.ofError]
        · split
          · simp
          · split
            · split <;> simp [Json.ofError]
            · split <;> simp [Json.ofError]

/-- C9, as the code has it. A response with an HTTP error status (405, 400 or
500, the only statuses besides 200) always carries a JSON error field and no
summary, and a failure thrown by the transcript fetch or by the fast-mode
generation call gives status 500 with its message. An error result that is
returned, not thrown, is sent with status 200: the missing-key and non-success
results of `geminiSummarize` in fast mode and the result of `fallbackSummary` in
simple mode keep status 200 with their error field, and complete mode answers
200 with a summary and no error field whatever the generation calls return. -/
theorem handler_error_status (w : World) (req : Request) :
    ((handler w req).1.status = 200 ∨ (handler w req).1.status = 400 ∨
      (handler w req).1.status = 405 ∨ (handler w req).1.status = 500) ∧
    ((handler w req).1.status ≠ 200 →
      (handler w req).1.json.error.isSome = true ∧ (handler w req).1.json.summary = none) ∧
    (∀ url st msg, req = postRequest url st → url ≠ [] →
      w.getTranscript (extractVideoId url) = Except.error msg →
      (handler w req).1 = ⟨500, Json.ofError (errMessage msg "Failed to summarize".toList)⟩) ∧
    (∀ url st lines, req = postRequest url st → url ≠ [] →
      w.getTranscript (extractVideoId url) = Except.ok lines →
      (st.getD "fast".toList = "simple".toList →
        (handler w req).1 = ⟨200, fallbackSummary (join " ".toList lines)⟩) ∧
      (st.getD "fast".toList = "fast".toList →
        (w.hasKey = false →
          (handler w req).1 = ⟨200, Json.ofError "No Gemini API key set.".toList⟩) ∧
        (w.hasKey = true →
          w.fetch 0 (geminiPrompt (first500 (join " ".toList lines)) "fast".toList)
            = FetchOutcome.notOk →
          (handler w req).1 = ⟨200, Json.ofError "Gemini API error".toList⟩) ∧
        (w.hasKey = true → ∀ m,
          w.fetch 0 (geminiPrompt (first500 (join " ".toList lines)) "fast".toList)
            = FetchOutcome.throws m →
          (handler w req).1 =
            ⟨500, Json.ofError (errMessage m "Failed to summarize".toList)⟩)) ∧
      (st.getD "fast".toList ≠ "simple".toList → st.getD "fast".toList ≠ "fast".toList →
        (∀ n p m, w.fetch n p ≠ FetchOutcome.throws m) →
        (handler w req).1.status = 200 ∧ (handler w req).1.json.error = none ∧
        (handler w req).1.json.summary.isSome = true)) := by
  obtain ⟨h1, h2⟩ := handler_status_cases w req
  refine ⟨h1, h2, ?_, ?_⟩
  · intro url st msg hr hu ht
    subst hr
    have h1 : url.isEmpty = false := by
      cases url with
      | nil => exact absurd rfl hu
      | cons c cs => rfl
    have h2 : (extractVideoId url).isEmpty = false := by
      have := extractVideoId_ne_nil url hu
      cases h : extractVideoId url with
      | nil => exact absurd h this
      | cons c cs => rfl
    simp only [handler, postRequest, Option.getD_some, h1, h2, ht]
    simp
  · intro url st lines hr hu ht
    subst hr
    rw [handler_post w url st lines hu ht]
    refine ⟨fun hs => by rw [if_pos hs], fun hs => ?_, fun hs1 hs2 hno => ?_⟩
    · have hne : ¬ (st.getD "fast".toList = "simple".toList) := by rw [hs]; decide
      rw [if_neg hne, if_pos hs]
      refine ⟨fun hk => ?_, fun hk hf => ?_, fun hk m hf => ?_⟩
      · rw [geminiSummarize_keyless w _ _ _ hk]
      · rw [geminiSummarize_notOk w _ _ _ hk hf]
      · rw [geminiSummarize_throws w _ _ _ m hk hf]
    · rw [if_neg hs1, if_neg hs2, summarizeChunks_spec w hno]
      simp [Json.ofSummary]

/-- C9 as amended, at a `GET` request and at the fast-mode request without a key. -/
theorem handler_error_status_witness :
    ((handler sampleWorld ⟨"GET".toList, none⟩).1.json.error.isSome = true ∧
      (handler sampleWorld ⟨"GET".toList, none⟩).1.json.summary = none) ∧
    (handler keylessWorld (postRequest sampleUrl none)).1 =
      ⟨200, Json.ofError "No Gemini API key set.".toList⟩ :=
  ⟨(handler_error_status sampleWorld ⟨"GET".toList, none⟩).2.1 (by decide),
   (((handler_error_status keylessWorld (postRequest sampleUrl none)).2.2.2
      sampleUrl none ["a b".toList, "c".toList] rfl (by decide) rfl).2.1 rfl).1 rfl⟩

/-- C9 as stated fails: without a key the fast-mode response has status 200 and
an error field; with a failing service it also has, and the complete-mode
response then has status 200 and a summary without any error field. -/
theorem handler_error_status_counterexample :
    (handler keylessWorld (postRequest sampleUrl none)).1 =
      ⟨200, Json.ofError "No Gemini API key set.".toList⟩ ∧
    (handler failingWorld (postRequest sampleUrl (some "fast".toList))).1 =
      ⟨200, Json.ofError "Gemini API error".toList⟩ ∧
    (handler failingWorld (postRequest sampleUrl (some "complete".toList))).1 =
      ⟨200, Json.ofSummary []⟩ ∧
    (handler failingWorld (postRequest sampleUrl (some "complete".toList))).1.json.error = none := by
  decide

/-- C10. `geminiSummarize` returns and does not throw when the key is missing or
the response is a non-success one: without a key (unset or empty) it returns the
error result `No Gemini API key set.` for every text and tier and issues no
request; with a key and a non-success response it returns the error result
`Gemini API error`; neither result has a summary. -/
theorem geminiSummarize_error_results (w : World) (n : Nat) (text ty : JSString) :
    (w.apiKey = none ∨ w.apiKey = some [] →
      geminiSummarize w n text ty =
        (Except.ok (Json.ofError "No Gemini API key set.".toList), [])) ∧
    (w.hasKey = true → w.fetch n (geminiPrompt text ty) = FetchOutcome.notOk →
      (geminiSummarize w n text ty).1 = Except.ok (Json.ofError "Gemini API error".toList)) ∧
    (∀ e, (Json.ofError e).error = some e ∧ (Json.ofError e).summary = none) := by
  refine ⟨fun h => ?_, fun hk hf => ?_, fun e => ⟨rfl, rfl⟩⟩
  · apply geminiSummarize_keyless
    rcases h with h | h <;> simp [World.hasKey, h]
  · rw [geminiSummarize_notOk w n text ty hk hf]

/-- C10, without a key and with a service that answers with a non-success status. -/
theorem geminiSummarize_error_results_witness :
    geminiSummarize keylessWorld 0 "some text".toList "fast".toList =
      (Except.ok (Json.ofError "No Gemini API key set.".toList), []) ∧
    (geminiSummarize failingWorld 0 "some text".toList "complete".toList).1 =
      Except.ok (Json.ofError "Gemini API error".toList) :=
  ⟨(geminiSummarize_error_results keylessWorld 0 "some text".toList "fast".toList).1
      (Or.inl rfl),
   (geminiSummarize_error_results failingWorld 0 "some text".toList "complete".toList).2.1
      rfl rfl⟩

/-! ## Both handlers: rejected requests -/

/-- The `url` of a request as the handlers read it: `(req.body || {}).url`,
taken as empty when it is absent. -/
theorem requestUrl_nil (req : Request)
    (hb : req.body = none ∨ ∃ b, req.body = some b ∧ (b.url = none ∨ b.url = some [])) :
    ((req.body.getD ⟨none, none⟩).url.getD []).isEmpty = true := by
  rcases hb with h | ⟨b, h, hu | hu⟩
  · rw [h]; rfl
  · rw [h, Option.getD_some, hu]; rfl
  · rw [h, Option.getD_some, hu]; rfl

/-- C11. Both handlers answer every request whose method is not `POST` with
status 405 and `Method not allowed`, whatever the body, and every `POST`
request without a body or with a missing or empty `url` with status 400 and
`Missing url`; in both cases no call to an outside service is made. -/
theorem handlers_reject (w : World) (req : Request) :
    (req.method ≠ "POST".toList →
      handler w req = (⟨405, Json.ofError "Method not allowed".toList⟩, []) ∧
      transcriptHandler w req = (⟨405, Json.ofError "Method not allowed".toList⟩, [])) ∧
    (req.method = "POST".toList →
      (req.body = none ∨ ∃ b, req.body = some b ∧ (b.url = none ∨ b.url = some [])) →
      handler w req = (⟨400, Json.ofError "Missing url".toList⟩, []) ∧
      transcriptHandler w req = (⟨400, Json.ofError "Missing url".toList⟩, [])) := by
  refine ⟨fun hm => ⟨?_, ?_⟩, fun hm hb => ⟨?_, ?_⟩⟩
  · unfold handler; rw [if_pos hm]
  · unfold transcriptHandler; rw [if_pos hm]
  · have hu := requestUrl_nil req hb
    unfold handler
    rw [if_neg (not_not.mpr hm)]
    simp only [hu, if_true]
  · have hu := requestUrl_nil req hb
    unfold transcriptHandler
    rw [if_neg (not_not.mpr hm)]
    simp only [hu, if_true]

/-- C11, at a `GET` request with a body and at `POST` requests without a body,
without a `url` and with an empty `url`. -/
theorem handlers_reject_witness :
    (handler sampleWorld ⟨"GET".toList, some ⟨some sampleUrl, none⟩⟩ =
        (⟨405, Json.ofError "Method not allowed".toList⟩, []) ∧
      transcriptHandler sampleWorld ⟨"GET".toList, some ⟨some sampleUrl, none⟩⟩ =
        (⟨405, Json.ofError "Method not allowed".toList⟩, [])) ∧
    (handler sampleWorld ⟨"POST".toList, none⟩ =
        (⟨400, Json.ofError "Missing url".toList⟩, []) ∧
      transcriptHandler sampleWorld ⟨"POST".toList, none⟩ =
        (⟨400, Json.ofError "Missing url".toList⟩, [])) ∧
    (handler sampleWorld ⟨"POST".toList, some ⟨none, some "fast".toList⟩⟩ =
        (⟨400, Json.ofError "Missing url".toList⟩, []) ∧
      transcriptHandler sampleWorld ⟨"POST".toList, some ⟨none, some "fast".toList⟩⟩ =
        (⟨400, Json.ofError "Missing url".toList⟩, [])) ∧
    (handler sampleWorld ⟨"POST".toList, some ⟨some [], none⟩⟩ =
        (⟨400, Json.ofError "Missing url".toList⟩, []) ∧
      transcriptHandler sampleWorld ⟨"POST".toList, some ⟨some [], none⟩⟩ =
        (⟨400, Json.ofError "Missing url".toList⟩, [])) :=
  ⟨(handlers_reject sampleWorld ⟨"GET".toList, some ⟨some sampleUrl, none⟩⟩).1 (by decide),
   (handlers_reject sampleWorld ⟨"POST".toList, none⟩).2 rfl (Or.inl rfl),
   (handlers_reject sampleWorld ⟨"POST".toList, some ⟨none, some "fast".toList⟩⟩).2 rfl
     (Or.inr ⟨_, rfl, Or.inl rfl⟩),
   (handlers_reject sampleWorld ⟨"POST".toList, some ⟨some [], none⟩⟩).2 rfl
     (Or.inr ⟨_, rfl, Or.inr rfl⟩)⟩

/-! ## The extracted identifier -/

theorem transcriptVideoId_eq (u : JSString) : transcriptVideoId u = extractVideoId u := rfl

theorem isEmpty_eq_false_of_ne_nil {α : Type} (l : List α) (h : l ≠ []) : l.isEmpty = false := by
  cases l with
  | nil => exact absurd rfl h
  | cons c cs => rfl

theorem ne_nil_of_isEmpty_eq_false {α : Type} (l : List α) (h : ¬ l.isEmpty = true) : l ≠ [] := by
  intro e; subst e; exact h rfl

/-- A response of the summarize handler with status 400 is the `Missing url` one. -/
theorem handler_status_400 (w : World) (req : Request)
    (h : (handler w req).1.status = 400) :
    (handler w req).1 = ⟨400, Json.ofError "Missing url".toList⟩ := by
  unfold handler at h ⊢
  split
  · rename_i hm; rw [if_pos hm] at h; simp at h
  · rename_i hm
    rw [if_neg hm] at h
    dsimp only at h ⊢
    split
    · rfl
    · rename_i hu
      rw [if_neg hu] at h
      have hne := extractVideoId_ne_nil _ (ne_nil_of_isEmpty_eq_false _ hu)
      have hv := isEmpty_eq_false_of_ne_nil _ hne
      rw [hv] at h ⊢
      exfalso
      revert h
      simp only [Bool.false_eq_true, if_false]
      split
      · simp
      · split
        · simp
        · split
          · split <;> simp
          · split <;> simp

/-- A response of the transcript handler with status 400 is the `Missing url` one. -/
theorem transcriptHandler_status_400 (w : World) (req : Request)
    (h : (transcriptHandler w req).1.status = 400) :
    (transcriptHandler w req).1 = ⟨400, Json.ofError "Missing url".toList⟩ := by
  unfold transcriptHandler at h ⊢
  split
  · rename_i hm; rw [if_pos hm] at h; simp at h
  · rename_i hm
    rw [if_neg hm] at h
    dsimp only at h ⊢
    split
    · rfl
    · rename_i hu
      rw [if_neg hu] at h
      have hne := extractVideoId_ne_nil _ (ne_nil_of_isEmpty_eq_false _ hu)
      rw [← transcriptVideoId_eq] at hne
      have hv := isEmpty_eq_false_of_ne_nil _ hne
      rw [hv] at h ⊢
      exfalso
      revert h
      simp only [Bool.false_eq_true, if_false]
      split <;> simp

/-- C16. For a non-empty `url` the identifier that either handler extracts is
non-empty, and no request at all gets the status-400 response
`Invalid YouTube URL` from the summarize or the transcript handler. -/
theorem invalid_url_unreachable (w : World) (req : Request) :
    (∀ url : JSString, url ≠ [] → extractVideoId url ≠ [] ∧ transcriptVideoId url ≠ []) ∧
    (handler w req).1 ≠ ⟨400, Json.ofError "Invalid YouTube URL".toList⟩ ∧
    (transcriptHandler w req).1 ≠ ⟨400, Json.ofError "Invalid YouTube URL".toList⟩ := by
  refine ⟨fun url hu => ⟨extractVideoId_ne_nil url hu, extractVideoId_ne_nil url hu⟩, ?_, ?_⟩
  · intro e
    have h := handler_status_400 w req (by rw [e])
    rw [e] at h
    revert h
    decide
  · intro e
    have h := transcriptHandler_status_400 w req (by rw [e])
    rw [e] at h
    revert h
    decide

/-- C16, at a URL and at a string that is no URL. -/
theorem invalid_url_unreachable_witness :
    (extractVideoId sampleUrl ≠ [] ∧ transcriptVideoId sampleUrl ≠ []) ∧
    (extractVideoId "x".toList ≠ [] ∧ transcriptVideoId "x".toList ≠ []) :=
  ⟨(invalid_url_unreachable sampleWorld (postRequest sampleUrl none)).1 sampleUrl (by decide),
   (invalid_url_unreachable sampleWorld (postRequest "x".toList none)).1 "x".toList (by decide)⟩

theorem or_eq_some_cases {α : Type} (a b : Option α) (x : α) (h : a.or b = some x) :
    a = some x ∨ b = some x := by
  cases a with
  | none => right; simpa using h
  | some y => left; simpa using h

theorem run_cls_some {α : Type} (p : Char → Bool) (s : JSString) (k : JSString → Option α)
    (x : α) (h : (Regex.cls p).run s k = some x) : ∃ c t, s = c :: t ∧ k t = some x := by
  cases s with
  | nil => simp [Regex.run] at h
  | cons c cs =>
    simp only [Regex.run] at h
    split at h
    · exact ⟨c, cs, rfl, h⟩
    · cases h

/-- Each of the three path alternatives ends with `/` or `=`: what is handed to
the continuation stands right after one of these two characters. -/
theorem path_some_sep {α : Type} (s : JSString) (k : JSString → Option α) (x : α)
    (h : pathDeep.run s k = some x ∨ pathKind.run s k = some x ∨ pathQuery.run s k = some x) :
    ∃ d t, (d = '/' ∨ d = '=') ∧ (d :: t) <:+ s ∧ k t = some x := by
  rcases h with h | h | h
  · unfold pathDeep at h
    rw [run_seq] at h
    obtain ⟨t, ht, h1⟩ := Regex.run_sound _ s _ x h
    rw [run_seq] at h1
    obtain ⟨t1, rfl, h2⟩ := run_char_some '/' t _ x h1
    rw [run_seq] at h2
    obtain ⟨u, hu, h3⟩ := Regex.run_sound _ t1 _ x h2
    obtain ⟨u1, rfl, h4⟩ := run_char_some '/' u _ x h3
    exact ⟨'/', u1, Or.inl rfl, (hu.trans (List.suffix_cons _ _)).trans ht, h4⟩
  · unfold pathKind at h
    rw [run_seq] at h
    obtain ⟨t, ht, h1⟩ := Regex.run_sound _ s _ x h
    obtain ⟨t1, rfl, h2⟩ := run_char_some '/' t _ x h1
    exact ⟨'/', t1, Or.inl rfl, ht, h2⟩
  · unfold pathQuery at h
    rw [run_seq] at h
    obtain ⟨t, ht, h1⟩ := Regex.run_sound _ s _ x h
    rw [run_seq] at h1
    obtain ⟨c, t1, rfl, h2⟩ := run_cls_some _ t _ x h1
    obtain ⟨t2, e, h3⟩ := Regex.run_str_some _ t1 _ x h2
    refine ⟨'=', t2, Or.inr rfl, ?_, h3⟩
    have e2 : c :: t1 = [c, 'v'] ++ ('=' :: t2) := by rw [e]; rfl
    exact (List.suffix_append _ _).trans (e2 ▸ ht)

/-- Where the pattern matches, the capture group is run right after a `/` or a
`=` of the input. -/
theorem matchAt_some_sep (t x : JSString) (h : matchAt t = some x) :
    ∃ d u, (d = '/' ∨ d = '=') ∧ (d :: u) <:+ t ∧ captureGroup u = some x := by
  unfold matchAt urlHead at h
  rw [run_alt] at h
  rcases or_eq_some_cases _ _ _ h with h1 | h1
  · rw [run_seq] at h1
    obtain ⟨t1, rfl, h2⟩ := Regex.run_str_some _ t _ x h1
    rw [run_alt, run_alt] at h2
    have h3 : pathDeep.run t1 captureGroup = some x ∨ pathKind.run t1 captureGroup = some x ∨
        pathQuery.run t1 captureGroup = some x := by
      rcases or_eq_some_cases _ _ _ h2 with h | h
      · exact Or.inl h
      · rcases or_eq_some_cases _ _ _ h with h | h
        · exact Or.inr (Or.inl h)
        · exact Or.inr (Or.inr h)
    obtain ⟨d, u, hd, hu, hk⟩ := path_some_sep t1 captureGroup x h3
    exact ⟨d, u, hd, hu.trans (List.suffix_append _ _), hk⟩
  · obtain ⟨t1, rfl, h2⟩ := Regex.run_str_some _ t _ x h1
    refine ⟨'/', t1, Or.inl rfl, ?_, h2⟩
    have e : "youtu.be/".toList ++ t1 = "youtu.be".toList ++ ('/' :: t1) := rfl
    rw [e]
    exact List.suffix_append _ _

/-- The pattern does not match a string of identifier characters. -/
theorem urlMatch_id_none (x : JSString) (hx : ∀ c ∈ x, isIdChar c = true) :
    urlMatch x = none := by
  cases hm : urlMatch x with
  | none => rfl
  | some y =>
    exfalso
    have hs : '/' ∈ x := by
      rcases urlMatch_some_infix x y hm with h | h
      · exact h.subset (by decide)
      · exact h.subset (by decide)
    exact isIdChar_ne_slash (hx _ hs) rfl

/-- C17. `extractVideoId` is idempotent; when the pattern matches, its result is
11 characters over `[A-Za-z0-9_-]` that stand in the input right after a
character outside that alphabet (so they are the first 11 characters of an
identifier run), and the pattern does not match the result. -/
theorem extractVideoId_idempotent (u : JSString) :
    extractVideoId (extractVideoId u) = extractVideoId u ∧
    (∀ x, urlMatch u = some x →
      extractVideoId u = x ∧ x.length = 11 ∧ (∀ c ∈ x, isIdChar c = true) ∧
      (∃ a b d, u = a ++ d :: x ++ b ∧ isIdChar d = false) ∧
      urlMatch x = none) := by
  have key : ∀ x, urlMatch u = some x →
      extractVideoId u = x ∧ x.length = 11 ∧ (∀ c ∈ x, isIdChar c = true) ∧
      (∃ a b d, u = a ++ d :: x ++ b ∧ isIdChar d = false) ∧
      urlMatch x = none := by
    intro x hm
    obtain ⟨t, ⟨q, hq⟩, ht⟩ := urlMatch_some u x hm
    obtain ⟨d, v, hd, ⟨p, hp⟩, hc⟩ := matchAt_some_sep t x ht
    obtain ⟨b, hb, hl, hid⟩ := captureGroup_some v x hc
    refine ⟨by unfold extractVideoId; rw [hm], hl, hid, ⟨q ++ p, b, d, ?_, ?_⟩,
      urlMatch_id_none x hid⟩
    · rw [← hq, ← hp, hb]; simp
    · rcases hd with rfl | rfl <;> decide
  refine ⟨?_, key⟩
  cases hm : urlMatch u with
  | none =>
    have e : extractVideoId u = u := by unfold extractVideoId; rw [hm]
    rw [e, e]
  | some x =>
    obtain ⟨e, -, -, -, hn⟩ := key x hm
    rw [e]
    unfold extractVideoId
    rw [hn]

/-- C17, at a watch URL whose identifier run has 14 characters. -/
theorem extractVideoId_idempotent_witness :
    extractVideoId "https://www.youtube.com/watch?v=dQw4w9WgXcQabc".toList =
      "dQw4w9WgXcQ".toList ∧
    urlMatch "dQw4w9WgXcQ".toList = none :=
  have h := (extractVideoId_idempotent
    "https://www.youtube.com/watch?v=dQw4w9WgXcQabc".toList).2 "dQw4w9WgXcQ".toList (by decide)
  ⟨h.1, h.2.2.2.2⟩

/-- C15, as the code has it. The summarize handler and the transcript handler
extract the same identifier from every input; `extractYouTubeId` of the client
returns that identifier too whenever the pattern matches, and returns `null`
exactly when it does not match, where the two handlers return the input itself. -/
theorem extractors_agree (u : JSString) :
    transcriptVideoId u = extractVideoId u ∧
    (∀ x, extractYouTubeId u = some x → extractVideoId u = x ∧ transcriptVideoId u = x) ∧
    (extractYouTubeId u = none ↔ urlMatch u = none) ∧
    (extractYouTubeId u = none → extractVideoId u = u ∧ transcriptVideoId u = u) := by
  unfold extractYouTubeId transcriptVideoId extractVideoId
  cases urlMatch u with
  | none => simp
  | some y => simp

/-- C15 as amended, at a short link and at a bare identifier. -/
theorem extractors_agree_witness :
    (extractVideoId sampleUrl = "dQw4w9WgXcQ".toList ∧
      transcriptVideoId sampleUrl = "dQw4w9WgXcQ".toList) ∧
    (extractVideoId "dQw4w9WgXcQ".toList = "dQw4w9WgXcQ".toList ∧
      transcriptVideoId "dQw4w9WgXcQ".toList = "dQw4w9WgXcQ".toList) :=
  ⟨(extractors_agree sampleUrl).2.1 "dQw4w9WgXcQ".toList (by decide),
   (extractors_agree "dQw4w9WgXcQ".toList).2.2.2 (by decide)⟩

/-- C15 as stated fails: for the bare identifier `dQw4w9WgXcQ` the client's
`extractYouTubeId` returns `null` while `extractVideoId` returns the identifier. -/
theorem extractors_agree_counterexample :
    extractYouTubeId "dQw4w9WgXcQ".toList = none ∧
    extractVideoId "dQw4w9WgXcQ".toList = "dQw4w9WgXcQ".toList ∧
    transcriptVideoId "dQw4w9WgXcQ".toList = "dQw4w9WgXcQ".toList ∧
    ¬ (∀ u : JSString, extractYouTubeId u = some (extractVideoId u)) := by
  refine ⟨by decide, by decide, by decide, fun h => ?_⟩
  have := h "dQw4w9WgXcQ".toList
  revert this
  decide

/-- C18. In complete mode the chunks cover the transcript: joined in order with
single spaces they give the transcript text back, and their words in order are
the words of the transcript. -/
theorem transcriptChunks_cover (text : JSString) :
    join " ".toList (transcriptChunks text) = text ∧
    ((transcriptChunks text).map (split ' ')).flatten = split ' ' text := by
  refine ⟨?_, (transcriptChunks_sizes text).2.1⟩
  rw [transcriptChunks_eq, join_chunks _ 1000 (by omega)]
  exact join_split ' ' text

/-! ## The number and the sizes of the bullets -/

/-- The last piece of a split of a text that ends with a character other than
the separator is not empty. -/
theorem getLast_split_append (sep c : Char) (hc : c ≠ sep) (s : JSString) :
    ∀ w ∈ (split sep (s ++ [c])).getLast?, w ≠ [] := by
  induction s with
  | nil =>
    intro w hw
    have : split sep ([] ++ [c]) = [[c]] := by simp [split, hc]
    rw [this] at hw
    have : w = [c] := by simpa using hw.symm
    rw [this]; simp
  | cons a s ih =>
    intro w hw
    obtain ⟨v, vs, hv⟩ := List.exists_cons_of_ne_nil (split_ne_nil sep (s ++ [c]))
    rw [hv] at ih
    by_cases ha : a = sep
    · have e : split sep (a :: s ++ [c]) = [] :: v :: vs := by
        show split sep (a :: (s ++ [c])) = _
        simp [split, ha, hv]
      rw [e, List.getLast?_cons_cons] at hw
      exact ih w hw
    · have e : split sep (a :: s ++ [c]) = (a :: v) :: vs := by
        show split sep (a :: (s ++ [c])) = _
        simp [split, ha, hv]
      rw [e] at hw
      cases vs with
      | nil =>
        have : w = a :: v := by simpa using hw.symm
        rw [this]; simp
      | cons y ys =>
        rw [List.getLast?_cons_cons] at hw
        rw [List.getLast?_cons_cons] at ih
        exact ih w hw

/-- The join of two or more strings with a non-empty separator is not empty. -/
theorem join_ne_nil_of_two (sep : JSString) (hs : sep ≠ []) (g : List JSString)
    (hg : 2 ≤ g.length) : join sep g ≠ [] := by
  cases g with
  | nil => simp at hg
  | cons a g =>
    cases g with
    | nil => simp at hg
    | cons b g => simp [join, hs]

/-- The last element of the last group is the last element of the list. -/
theorem getLast_chunks {α : Type} (n : Nat) (hn : 0 < n) (xs : List α) (g : List α)
    (hg : g ∈ (chunks n xs).getLast?) : g.getLast? = xs.getLast? := by
  obtain ⟨ys, hy⟩ := List.getLast?_eq_some_iff.mp (Option.mem_def.mp hg)
  have hgne : g ≠ [] := ne_nil_of_mem_chunks n hn xs g (by rw [hy]; simp)
  have hf := chunks_flatten n hn xs
  rw [hy, List.flatten_append] at hf
  simp only [List.flatten_cons, List.flatten_nil, List.append_nil] at hf
  rw [← hf, List.getLast?_append]
  obtain ⟨z, zs, hz⟩ := List.exists_cons_of_ne_nil hgne
  cases hl : g.getLast? with
  | none =>
    rw [hz] at hl
    simp [List.getLast?_eq_none_iff] at hl
  | some y => simp

/-- C14. For a text that is non-empty after trimming, when the joined text splits
on single spaces into `W` tokens (empty ones included) the fallback summary has
exactly `ceil(W/15)` bullets, each but the last of exactly 15 tokens and the
last of 1 to 15, and no bullet is empty; the summary is these bullets, each
after its marker, joined by newlines. -/
theorem fallbackBullets_count (t : JSString) (h : trim t ≠ []) :
    (fallbackBullets t).length = ((split ' ' (basicSummary (trim t))).length + 14) / 15 ∧
    (∀ b ∈ (fallbackBullets t).dropLast, (split ' ' b).length = 15) ∧
    (∀ b ∈ (fallbackBullets t).getLast?,
      1 ≤ (split ' ' b).length ∧ (split ' ' b).length ≤ 15) ∧
    (∀ b ∈ fallbackBullets t, b ≠ []) ∧
    (fallbackSummary t).summary =
      some (join "\n".toList ((fallbackBullets t).map (fun pt => "• ".toList ++ pt))) := by
  have hsz := chunks_sizes 15 (by omega) (split ' ' (basicSummary (trim t)))
  have hsplit : ∀ g ∈ chunks 15 (split ' ' (basicSummary (trim t))),
      split ' ' (join " ".toList g) = g :=
    fun g hg => split_join_of_mem_chunks 15 (by omega) _ g hg
  have hlast : ∀ g ∈ (chunks 15 (split ' ' (basicSummary (trim t)))).getLast?,
      g ∈ chunks 15 (split ' ' (basicSummary (trim t))) := by
    intro g hg
    obtain ⟨hne, e⟩ := List.mem_getLast?_eq_getLast hg
    rw [e]; exact List.getLast_mem hne
  refine ⟨?_, ?_, ?_, ?_, by simp [fallbackSummary, h]⟩
  · unfold fallbackBullets
    rw [bulletPoints_eq_chunks, List.length_map, chunks_length 15 (by omega)]
    rfl
  · intro b hb
    obtain ⟨g, -, hl, -, hs⟩ := fallbackBullets_dropLast t b hb
    rw [hs, hl]
  · intro b hb
    unfold fallbackBullets at hb
    rw [bulletPoints_eq_chunks, List.getLast?_map] at hb
    obtain ⟨g, hg, rfl⟩ := Option.mem_map.mp hb
    rw [hsplit g (hlast g hg)]
    exact hsz.2 g hg
  · intro b hb
    unfold fallbackBullets at hb
    rw [bulletPoints_eq_chunks] at hb
    obtain ⟨g, hg, rfl⟩ := List.mem_map.mp hb
    by_cases h2 : 2 ≤ g.length
    · exact join_ne_nil_of_two _ (by decide) g h2
    · have hgne := ne_nil_of_mem_chunks 15 (by omega) _ g hg
      obtain ⟨w, rfl⟩ : ∃ w, g = [w] := by
        cases g with
        | nil => exact absurd rfl hgne
        | cons a g =>
          cases g with
          | nil => exact ⟨a, rfl⟩
          | cons b g => simp at h2
      show w ≠ []
      obtain ⟨ys, y, hy⟩ : ∃ ys y, chunks 15 (split ' ' (basicSummary (trim t))) = ys ++ [y] := by
        rcases List.eq_nil_or_concat (chunks 15 (split ' ' (basicSummary (trim t)))) with e | ⟨ys, y, e⟩
        · rw [e] at hg; simp at hg
        · exact ⟨ys, y, by rw [e, List.concat_eq_append]⟩
      have hyl : y ∈ (chunks 15 (split ' ' (basicSummary (trim t)))).getLast? := by
        rw [hy]; simp
      have hwy : [w] = y := by
        rw [hy] at hg hsz
        rcases List.mem_append.mp hg with hm | hm
        · have := hsz.1 [w] (by simpa using hm)
          simp at this
        · simpa using hm
      subst hwy
      have hl := getLast_chunks 15 (by omega) _ [w] hyl
      have hb : basicSummary (trim t) =
          join ". ".toList ((split '.' (trim t)).take 10) ++ ['.'] := rfl
      rw [hb] at hl
      exact getLast_split_append ' ' '.' (by decide) _ w (by rw [← hl]; simp)

/-- C14, at a text of 16 words: 17 tokens, two bullets, the first of 15 tokens. -/
theorem fallbackBullets_count_witness :
    (fallbackBullets "a. b c d e f g h i j k l m n o p".toList).length =
      ((split ' ' (basicSummary (trim "a. b c d e f g h i j k l m n o p".toList))).length + 14) / 15 ∧
    (split ' ' "a.  b c d e f g h i j k l m n".toList).length = 15 ∧
    (1 ≤ (split ' ' "o p.".toList).length ∧ (split ' ' "o p.".toList).length ≤ 15) ∧
    "o p.".toList ≠ [] :=
  have h := fallbackBullets_count "a. b c d e f g h i j k l m n o p".toList (by decide)
  ⟨h.1, h.2.1 "a.  b c d e f g h i j k l m n".toList (by decide),
   h.2.2.1 "o p.".toList (by decide), h.2.2.2.1 "o p.".toList (by decide)⟩

/-! ## Merging the suggestions -/

/-- `findIndex` gives the position of an element that satisfies the test exactly
when no element before it does. -/
theorem findIndexFrom_eq_iff {α : Type} (p : α → Bool) (x : α) (post : List α)
    (hx : p x = true) (pre : List α) :
    ∀ i : Nat, findIndexFrom p (pre ++ x :: post) i = ((i + pre.length : Nat) : Int) ↔
      ∀ y ∈ pre, p y = false := by
  induction pre with
  | nil => intro i; simp [findIndexFrom, hx]
  | cons a pre ih =>
    intro i
    by_cases ha : p a = true
    · simp only [List.cons_append, findIndexFrom, ha, if_true, List.length_cons]
      constructor
      · intro h
        have : (i : Int) = ((i + (pre.length + 1) : Nat) : Int) := h
        omega
      · intro h
        have := h a (List.mem_cons_self _ _)
        rw [ha] at this
        cases this
    · have ha2 : p a = false := by simpa using ha
      have hf : findIndexFrom p (a :: pre ++ x :: post) i =
          findIndexFrom p (pre ++ x :: post) (i + 1) := by
        show findIndexFrom p (a :: (pre ++ x :: post)) i = _
        rw [findIndexFrom, if_neg ha]
      have e : i + (a :: pre).length = i + 1 + pre.length := by
        rw [List.length_cons]; omega
      rw [hf, e, ih (i + 1)]
      constructor
      · intro h y hy
        rcases List.mem_cons.mp hy with rfl | hy
        · exact ha2
        · exact h y hy
      · intro h y hy
        exact h y (List.mem_cons_of_mem _ hy)

/-- The callback keeps an item exactly when its id is not the source id and no
earlier item has its id. -/
theorem keepSuggestion_iff (videoId : JSString) (pre : List Suggestion) (x : Suggestion)
    (post : List Suggestion) :
    keepSuggestion videoId x pre.length (pre ++ x :: post) = true ↔
      x.videoId ≠ videoId ∧ ∀ y ∈ pre, y.videoId ≠ x.videoId := by
  have h := findIndexFrom_eq_iff (fun s : Suggestion => s.videoId == x.videoId) x post
    (by simp) pre 0
  simp only [Nat.zero_add] at h
  unfold keepSuggestion findIndex
  simp only [Bool.and_eq_true, bne_iff_ne, ne_eq, beq_iff_eq]
  rw [h]
  simp

/-- The filter over the rest of the array keeps the first occurrences of the ids
that are neither the source id nor an id seen before. -/
theorem filterFrom_eq_firstOccurrences (videoId : JSString) (rest : List Suggestion) :
    ∀ (pre : List Suggestion) (seen : List JSString),
      (∀ j, j ∈ seen ↔ j = videoId ∨ j ∈ pre.map (fun s => s.videoId)) →
      filterFrom (keepSuggestion videoId) (pre ++ rest) rest pre.length =
        firstOccurrences seen rest := by
  induction rest with
  | nil => intro pre seen _; rfl
  | cons x rest ih =>
    intro pre seen hseen
    have hk := keepSuggestion_iff videoId pre x rest
    have hmem : x.videoId ∈ seen ↔ ¬ (x.videoId ≠ videoId ∧ ∀ y ∈ pre, y.videoId ≠ x.videoId) := by
      rw [hseen]
      constructor
      · rintro (h | h) ⟨h1, h2⟩
        · exact h1 h
        · obtain ⟨y, hy, e⟩ := List.mem_map.mp h
          exact h2 y hy e
      · intro h
        by_cases h1 : x.videoId = videoId
        · exact Or.inl h1
        · right
          by_contra h2
          exact h ⟨h1, fun y hy e => h2 (List.mem_map.mpr ⟨y, hy, e⟩)⟩
    have e1 : pre ++ x :: rest = (pre ++ [x]) ++ rest := by simp
    have e2 : pre.length + 1 = (pre ++ [x]).length := by simp
    unfold filterFrom firstOccurrences
    by_cases hx : x.videoId ∈ seen
    · have hf : ¬ keepSuggestion videoId x pre.length (pre ++ x :: rest) = true :=
        fun h => (hmem.mp hx) (hk.mp h)
      rw [if_neg hf, if_pos hx, e1, e2]
      apply ih
      intro j
      rw [hseen]
      constructor
      · rintro (h | h)
        · exact Or.inl h
        · right; simp only [List.map_append, List.mem_append]; exact Or.inl h
      · rintro (h | h)
        · exact Or.inl h
        · simp only [List.map_append, List.mem_append, List.map_cons, List.map_nil,
            List.mem_singleton] at h
          rcases h with h | h
          · exact Or.inr h
          · rw [h]; exact (hseen _).mp hx
    · have hf : keepSuggestion videoId x pre.length (pre ++ x :: rest) = true := by
        apply hk.mpr
        by_contra h
        exact hx (hmem.mpr h)
      rw [if_pos hf, if_neg hx, e1, e2]
      congr 1
      apply ih
      intro j
      simp only [List.mem_cons, List.map_append, List.mem_append, List.map_cons, List.map_nil,
        List.mem_singleton, hseen]
      tauto

/-- The filtered array is the list of first occurrences of the ids other than
the source id. -/
theorem filterWithIndex_keep (videoId : JSString) (all : List Suggestion) :
    filterWithIndex (keepSuggestion videoId) all = firstOccurrences [videoId] all := by
  have := filterFrom_eq_firstOccurrences videoId all [] [videoId] (by simp)
  simpa [filterWithIndex] using this

theorem firstOccurrences_sublist (xs : List Suggestion) :
    ∀ seen, (firstOccurrences seen xs).Sublist xs := by
  induction xs with
  | nil => intro seen; exact List.Sublist.refl _
  | cons a xs ih =>
    intro seen
    unfold firstOccurrences
    split
    · exact (ih seen).cons a
    · exact (ih _).cons₂ a

theorem firstOccurrences_not_seen (xs : List Suggestion) :
    ∀ seen, ∀ x ∈ firstOccurrences seen xs, x.videoId ∉ seen := by
  induction xs with
  | nil => intro seen x hx; simp [firstOccurrences] at hx
  | cons a xs ih =>
    intro seen x hx
    unfold firstOccurrences at hx
    split at hx
    · exact ih seen x hx
    · rename_i ha
      rcases List.mem_cons.mp hx with rfl | hx
      · exact ha
      · exact fun h => ih _ x hx (List.mem_cons_of_mem _ h)

theorem firstOccurrences_nodup (xs : List Suggestion) :
    ∀ seen, ((firstOccurrences seen xs).map (fun s => s.videoId)).Nodup := by
  induction xs with
  | nil => intro seen; simp [firstOccurrences]
  | cons a xs ih =>
    intro seen
    unfold firstOccurrences
    split
    · exact ih seen
    · rw [List.map_cons, List.nodup_cons]
      refine ⟨?_, ih _⟩
      intro h
      obtain ⟨y, hy, e⟩ := List.mem_map.mp h
      exact firstOccurrences_not_seen xs _ y hy (by rw [e]; exact List.mem_cons_self _ _)

/-- Every kept item is the earliest item of the list with its id. -/
theorem firstOccurrences_earliest (xs : List Suggestion) :
    ∀ seen, ∀ x ∈ firstOccurrences seen xs,
      ∃ pre post, xs = pre ++ x :: post ∧ ∀ y ∈ pre, y.videoId ≠ x.videoId := by
  induction xs with
  | nil => intro seen x hx; simp [firstOccurrences] at hx
  | cons a xs ih =>
    intro seen x hx
    unfold firstOccurrences at hx
    split at hx
    · rename_i ha
      obtain ⟨pre, post, e, hp⟩ := ih seen x hx
      refine ⟨a :: pre, post, by rw [e]; rfl, ?_⟩
      intro y hy
      rcases List.mem_cons.mp hy with rfl | hy
      · intro e2
        exact firstOccurrences_not_seen xs seen x hx (e2 ▸ ha)
      · exact hp y hy
    · rcases List.mem_cons.mp hx with rfl | hx
      · exact ⟨[], xs, rfl, by simp⟩
      · obtain ⟨pre, post, e, hp⟩ := ih _ x hx
        refine ⟨a :: pre, post, by rw [e]; rfl, ?_⟩
        intro y hy
        rcases List.mem_cons.mp hy with rfl | hy
        · intro e2
          exact firstOccurrences_not_seen xs _ x hx (by rw [← e2]; exact List.mem_cons_self _ _)
        · exact hp y hy

/-- Every id of the list that is not in `seen` is the id of a kept item. -/
theorem firstOccurrences_complete (xs : List Suggestion) :
    ∀ seen, ∀ y ∈ xs, y.videoId ∉ seen →
      y.videoId ∈ (firstOccurrences seen xs).map (fun s => s.videoId) := by
  induction xs with
  | nil => intro seen y hy; simp at hy
  | cons a xs ih =>
    intro seen y hy hn
    unfold firstOccurrences
    split
    · rename_i ha
      rcases List.mem_cons.mp hy with rfl | hy
      · exact absurd ha hn
      · exact ih seen y hy hn
    · rw [List.map_cons]
      by_cases e : y.videoId = a.videoId
      · rw [e]; exact List.mem_cons_self _ _
      · rcases List.mem_cons.mp hy with rfl | hy
        · exact absurd rfl e
        · exact List.mem_cons_of_mem _ (ih _ y hy (by simp [e, hn]))

theorem uniqueSuggestions_eq (videoId : JSString) (category channel keyword : Option (List Suggestion)) :
    uniqueSuggestions videoId category channel keyword =
      (firstOccurrences [videoId] (allSuggestions category channel keyword)).take 12 := by
  unfold uniqueSuggestions
  rw [filterWithIndex_keep]
  simp [slice]

/-- C12. The merged suggestion list has no item whose id is the source video id
and no two items with the same id. -/
theorem uniqueSuggestions_distinct (videoId : JSString)
    (category channel keyword : Option (List Suggestion)) :
    (∀ x ∈ uniqueSuggestions videoId category channel keyword, x.videoId ≠ videoId) ∧
    ((uniqueSuggestions videoId category channel keyword).map (fun s => s.videoId)).Nodup := by
  rw [uniqueSuggestions_eq]
  constructor
  · intro x hx e
    exact firstOccurrences_not_seen _ _ x (List.mem_of_mem_take hx) (by simp [e])
  · rw [List.map_take]
    exact (firstOccurrences_nodup _ _).sublist (List.take_sublist _ _)

/-- C13. The merged suggestion list is the first 12 of the first occurrences, in
`category ++ channel ++ keyword`, of the ids other than the source id: its items
keep the order of the concatenation, each is the earliest item with its id, there
are at most 12, and when at most 12 distinct ids other than the source id occur
each of them is the id of a merged item. -/
theorem uniqueSuggestions_first_seen (videoId : JSString)
    (category channel keyword : Option (List Suggestion)) :
    allSuggestions category channel keyword =
      category.getD [] ++ channel.getD [] ++ keyword.getD [] ∧
    uniqueSuggestions videoId category channel keyword =
      (firstOccurrences [videoId] (allSuggestions category channel keyword)).take 12 ∧
    (uniqueSuggestions videoId category channel keyword).Sublist
      (allSuggestions category channel keyword) ∧
    (∀ x ∈ uniqueSuggestions videoId category channel keyword,
      ∃ pre post, allSuggestions category channel keyword = pre ++ x :: post ∧
        ∀ y ∈ pre, y.videoId ≠ x.videoId) ∧
    (uniqueSuggestions videoId category channel keyword).length ≤ 12 ∧
    ((((allSuggestions category channel keyword).map (fun s => s.videoId)).filter
        (fun j => j != videoId)).toFinset.card ≤ 12 →
      ∀ y ∈ allSuggestions category channel keyword, y.videoId ≠ videoId →
        y.videoId ∈ (uniqueSuggestions videoId category channel keyword).map
          (fun s => s.videoId)) := by
  rw [uniqueSuggestions_eq]
  refine ⟨rfl, rfl, ?_, ?_, ?_, ?_⟩
  · exact (List.take_sublist _ _).trans (firstOccurrences_sublist _ _)
  · intro x hx
    exact firstOccurrences_earliest _ _ x (List.mem_of_mem_take hx)
  · rw [List.length_take]; exact Nat.min_le_left _ _
  · intro hcard y hy hne
    have hsub : ((firstOccurrences [videoId] (allSuggestions category channel keyword)).map
        (fun s => s.videoId)).toFinset ⊆
        (((allSuggestions category channel keyword).map (fun s => s.videoId)).filter
          (fun j => j != videoId)).toFinset := by
      intro j hj
      rw [List.mem_toFinset] at hj ⊢
      obtain ⟨x, hx, rfl⟩ := List.mem_map.mp hj
      rw [List.mem_filter]
      refine ⟨List.mem_map.mpr ⟨x, (firstOccurrences_sublist _ _).subset hx, rfl⟩, ?_⟩
      have := firstOccurrences_not_seen _ _ x hx
      simpa using this
    have hlen : (firstOccurrences [videoId] (allSuggestions category channel keyword)).length
        ≤ 12 := by
      have h1 := List.toFinset_card_of_nodup (firstOccurrences_nodup
        (allSuggestions category channel keyword) [videoId])
      rw [List.length_map] at h1
      rw [← h1]
      exact (Finset.card_le_card hsub).trans hcard
    rw [List.take_of_length_le hlen]
    exact firstOccurrences_complete _ _ y hy (by simpa using hne)

/-- C12, at the sample results with the source id `x`: the kept item `a` does not
have the source id. -/
theorem uniqueSuggestions_distinct_witness :
    (⟨"a".toList, "A".toList, [], []⟩ : Suggestion).videoId ≠ "x".toList ∧
    ((uniqueSuggestions "x".toList sampleCategory none sampleKeyword).map
      (fun s => s.videoId)).Nodup :=
  ⟨(uniqueSuggestions_distinct "x".toList sampleCategory none sampleKeyword).1
      ⟨"a".toList, "A".toList, [], []⟩ (by decide),
   (uniqueSuggestions_distinct "x".toList sampleCategory none sampleKeyword).2⟩

/-- C13, at the sample results with the source id `x`: three distinct ids occur
besides `x`, the item `c` is merged, and the merged item `a` is the first one. -/
theorem uniqueSuggestions_first_seen_witness :
    "c".toList ∈ (uniqueSuggestions "x".toList sampleCategory none sampleKeyword).map
      (fun s => s.videoId) ∧
    ∃ pre post, allSuggestions sampleCategory none sampleKeyword =
        pre ++ (⟨"a".toList, "A".toList, [], []⟩ : Suggestion) :: post ∧
      ∀ y ∈ pre, y.videoId ≠ (⟨"a".toList, "A".toList, [], []⟩ : Suggestion).videoId :=
  have h := uniqueSuggestions_first_seen "x".toList sampleCategory none sampleKeyword
  ⟨h.2.2.2.2.2 (by decide) ⟨"c".toList, "C".toList, [], []⟩ (by decide) (by decide),
   h.2.2.2.1 ⟨"a".toList, "A".toList, [], []⟩ (by decide)⟩

end Youtubey
